import Mathlib

/-!
Verification of protoc-gen-gogo/generator/helper.go.

A shallow embedding of the helper functions of the gogoprotobuf generator
(`getCustomType`, `EmbedFieldName`, the type-name index, the plugin import
registry `pluginImports` with its handles `importedPackage`, and the plugin
pipeline `GeneratePlugin`) together with theorems about them.

Go strings are modelled by `String`; the separators the source works with
(`.`, `/`, `_`) are one-byte characters, so splitting and replacing by
character agrees with Go's bytewise behaviour on valid UTF-8 text.
-/

namespace Helper

/-! ## The part of package `strings` that helper.go calls -/

namespace strings

/-- Scanning loop of `strings.Split` for a one-character separator: `cur` is
the piece collected since the last separator. -/
def splitChars (sep : Char) : List Char → List Char → List (List Char)
  | cur, [] => [cur]
  | cur, c :: cs =>
    if c = sep then cur :: splitChars sep [] cs
    else splitChars sep (cur ++ [c]) cs

/-- Go `strings.Split(s, sep)` for a one-character separator (helper.go only
splits on "."): the pieces of `s` between the occurrences of `sep`; a text
without the separator gives the one-element list holding `s`. -/
def Split (s : String) (sep : Char) : List String :=
  (splitChars sep [] s.data).map String.mk

/-- Go `strings.Join(a, sep)`. -/
def Join : List String → String → String
  | [], _ => ""
  | [a], _ => a
  | a :: b :: rest, sep => a ++ sep ++ Join (b :: rest) sep

/-- Left-to-right scan of `strings.Replace` with `n = -1`: at an occurrence of
`old` emit `new` and skip the occurrence, otherwise copy one character. -/
def replaceChars (old new : List Char) : Nat → List Char → List Char
  | 0, s => s
  | _ + 1, [] => []
  | fuel + 1, c :: cs =>
    if old.isPrefixOf (c :: cs) then
      new ++ replaceChars old new fuel ((c :: cs).drop old.length)
    else c :: replaceChars old new fuel cs

/-- Go `strings.Replace(s, old, new, -1)` for a non-empty `old` (every call in
helper.go passes a non-empty literal and `-1`): all non-overlapping
occurrences of `old` are replaced, scanning from the left. Each step consumes
at least one character, so `s.length` steps always suffice. -/
def Replace (s old new : String) : String :=
  ⟨replaceChars old.data new.data s.length s.data⟩

end strings

/-! ## Custom types -/

/-- Go `error`: `none` is `nil`, `some msg` an error value with that message. -/
abbrev error := Option String

/-- The pair `(v, err)` returned by
`proto.GetExtension(field.Options, gogoproto.E_Customtype)`. `proto` is declared
outside helper.go, so the pair is carried as data: `v` is the `*string` behind
the returned interface value (`none` for a nil pointer), `err` the error. -/
structure ExtensionResult where
  v : Option String
  err : error
deriving DecidableEq, Repr

/-- The `descriptor.FieldOptions` of a field, as far as helper.go looks at it:
the outcome of reading the `customtype` extension. -/
structure FieldOptions where
  customtype : ExtensionResult
deriving DecidableEq, Repr

/-- The `descriptor.FieldDescriptorProto`, as far as helper.go looks at it:
`Options` and `TypeName` are pointers and may be nil. -/
structure FieldDescriptorProto where
  Options : Option FieldOptions
  TypeName : Option String := none
deriving DecidableEq, Repr

/-- Go `(*FieldDescriptorProto).GetTypeName`, the generated getter declared
outside helper.go: the type name, or the empty string when it is not set. -/
def FieldDescriptorProto.GetTypeName (field : FieldDescriptorProto) : String :=
  field.TypeName.getD ""

/-- How a call ends when it does not return. -/
inductive Abort where
  | Fail (msg : String)
  | panic (msg : String)
deriving DecidableEq, Repr

/-- Go `GoTypeToName`. -/
def GoTypeToName (goTyp : String) : String :=
  strings.Replace (strings.Replace goTyp "*" "") "[]" ""

/-- Go `EmbedFieldName`: the returned name, or the panic of the last line. -/
def EmbedFieldName (goTyp : String) : Except Abort String :=
  let goTyp := GoTypeToName goTyp
  let goTyps := strings.Split goTyp '.'
  if goTyps.length = 1 then
    .ok goTyp
  else if goTyps.length = 2 then
    .ok (goTyps.getD 1 "")
  else
    .error (.panic "unreachable")

/-- Go `getCustomType`, helper.go lines 207-227. The result is the triple
`(first, second, err)` in the order of the `return` statements; the signature
names the results `(packageName, typ, err)`.

* The named results `typ` and `err` are never assigned on the path to the
  `return` that reads them, so they hold their zero values `""` and `nil`:
  `v, err := proto.GetExtension(..)` declares a new `err` inside the `if`
  block, and `err = errors.New(..)` assigns that inner variable.
* `return "", typ, nil` in the one-component branch reads the named result
  `typ`, which is still `""`.
* `return typ, packageName, nil` in the branch for two or more components
  lists the type reference first and the import path second. -/
def getCustomType (field : FieldDescriptorProto) : String × String × error :=
  let typ : String := ""
  let err : error := none
  match field.Options with
  | none => ("", "", err)
  | some opts =>
    let r := opts.customtype
    match r.err, r.v with
    | none, some ctype =>
      let ss := strings.Split ctype '.'
      if ss.length = 1 then
        ("", typ, none)
      else if ss.length ≥ 2 then
        let packageName := strings.Join (ss.take (ss.length - 1)) "."
        let typeName := ss.getD (ss.length - 1) ""
        let importStr := strings.Replace (strings.Replace packageName "/" "_") "." "_"
        let typ := importStr ++ "." ++ typeName
        (typ, packageName, none)
      else
        -- the inner `err` is set to errors.New(..); the outer one is returned
        ("", "", err)
    | _, _ => ("", "", err)

/-- The alias fragment `importStr` that line 218 of helper.go computes from
the import path. -/
def importStr (packageName : String) : String :=
  strings.Replace (strings.Replace packageName "/" "_") "." "_"

/-- What the two replacements of line 218 do to one character. -/
def underscore (c : Char) : Char :=
  if c = '/' ∨ c = '.' then '_' else c

/-- Go `GetCustomType`: the exported wrapper. -/
def GetCustomType (field : FieldDescriptorProto) : String × String × error :=
  getCustomType field

/-- A field whose options carry the custom-type annotation `ctype`. -/
def fieldWithCustomType (ctype : String) : FieldDescriptorProto :=
  { Options := some { customtype := { v := some ctype, err := none } } }

/-! ## The import registry -/

/-- A `*FileDescriptor` of the request, as far as helper.go looks at it:
`addr` is the address of the descriptor, by which the source tells files
apart (the keys of `genFileMap` are these pointers), and `Name` is the name
in the descriptor it points to. -/
structure FileDescriptor where
  Name : String
  addr : Nat := 0
deriving DecidableEq, Repr

/-- Go `Descriptor`, a message type, as far as helper.go looks at it. -/
structure Descriptor where
  Name : String
  group : Bool
deriving DecidableEq, Repr

/-- Go `EnumDescriptor`, as far as helper.go looks at it. -/
structure EnumDescriptor where
  Name : String
deriving DecidableEq, Repr

/-- Go `Object`, the interface of the values of the type-name index: a
`*Descriptor`, an `*EnumDescriptor`, or a value of another type. -/
inductive Object where
  | message (d : Descriptor)
  | enum (e : EnumDescriptor)
  | other (name : String)
deriving DecidableEq, Repr

/-- Go `plugin.CodeGeneratorResponse_File`: one artifact. -/
structure CodeGeneratorResponse_File where
  Name : String
  Content : String
deriving DecidableEq, Repr

/-- Go `plugin.CodeGeneratorResponse`: `File` is a slice of pointers, each nil
or pointing to an artifact. -/
structure CodeGeneratorResponse where
  File : List (Option CodeGeneratorResponse_File)
deriving DecidableEq, Repr

/-- The generator, as far as helper.go reads or writes it. `Generator.P`,
which prints one line, is declared outside helper.go; the buffer is kept as
the sequence of chunks written to it, one chunk per call of `P` or `Write`.
The map `typeNameToObject` is kept as the list of its entries. -/
structure Generator where
  ImportPrefix : String
  Buffer : List String
  typeNameToObject : List (String × Object) := []
  allFiles : List FileDescriptor := []
  genFiles : List FileDescriptor := []
  file : Option FileDescriptor := none
  usedPackages : List (String × Bool) := []
  Response : CodeGeneratorResponse := { File := [] }
deriving DecidableEq, Repr

/-- Go `g.P(s)` with one argument: writes `s` as one more chunk of output. -/
def Generator.P (g : Generator) (s : String) : Generator :=
  { g with Buffer := g.Buffer ++ [s] }

/-- Go `(*Descriptor).IsGroup`. -/
def Descriptor.IsGroup (d : Descriptor) : Bool :=
  d.group

/-- Modelled from the spec: `Generator.Fail` is declared outside helper.go. The
spec has every error of the core "always fatal": the call does not return,
the run ends with the message, the arguments joined by blanks. -/
def Generator.Fail {α : Type} (msgs : List String) : Except Abort α :=
  .error (.Fail (strings.Join msgs " "))

/-- Go `(*Generator).IsGroup`: the index is read with the field's type name
and the entry is tested for being a `*Descriptor`; a missing entry gives the
nil interface value, which is none. -/
def Generator.IsGroup (g : Generator) (field : FieldDescriptorProto) : Bool :=
  match g.typeNameToObject.lookup field.GetTypeName with
  | some (.message d) => d.IsGroup
  | _ => false

/-- Go `(*Generator).TypeNameByObject`. -/
def Generator.TypeNameByObject (g : Generator) (typeName : String) : Except Abort Object :=
  match g.typeNameToObject.lookup typeName with
  | none => Generator.Fail ["can't find object with type", typeName]
  | some o => .ok o

/-- Go `importedPackage`: the object behind a `Single` handle. -/
structure importedPackage where
  used : Bool
  pkg : String
  name : String
  importPrefix : String
deriving DecidableEq, Repr

/-- Go `newImportedPackage`: only `pkg` and `importPrefix` are set, `used` and
`name` keep their zero values. -/
def newImportedPackage (importPrefix pkg : String) : importedPackage :=
  { used := false, pkg := pkg, name := "", importPrefix := importPrefix }

/-- Modelled from the spec: `RegisterUniquePackageName` and the table of
package names in use that it keeps are declared outside helper.go. The spec
has it "allocate a unique alias for the path", unique among the aliases
"already allocated in this batch": `pick pkg inUse` is the name chosen for
`pkg` when the names of `inUse` are taken, and it is none of them. -/
structure Allocator where
  pick : String → List String → String
  fresh : ∀ pkg inUse, pick pkg inUse ∉ inUse

/-- Modelled from the spec: `RegisterUniquePackageName(pkg, nil)`, declared
outside helper.go: returns the name picked by the allocator and records it in
the table of names in use. -/
def RegisterUniquePackageName (A : Allocator) (pkg : String) (pkgNamesInUse : List String) :
    String × List String :=
  (A.pick pkg pkgNamesInUse, A.pick pkg pkgNamesInUse :: pkgNamesInUse)

/-- Go `(*importedPackage).Use`: the handle after the call, the table of names
in use after the call, and the returned alias. -/
def importedPackage.Use (A : Allocator) (this : importedPackage) (pkgNamesInUse : List String) :
    importedPackage × List String × String :=
  if !this.used then
    let r := RegisterUniquePackageName A this.pkg pkgNamesInUse
    ({ this with name := r.1, used := true }, r.2, r.1)
  else
    (this, pkgNamesInUse, this.name)

/-- Go `(*importedPackage).IsUsed`. -/
def importedPackage.IsUsed (this : importedPackage) : Bool :=
  this.used

/-- Go `(*importedPackage).Generate`; `Quote` stands for `strconv.Quote`. -/
def importedPackage.Generate (Quote : String → String) (this : importedPackage) : String :=
  strings.Join ["import ", this.name, " ", Quote (this.importPrefix ++ this.pkg)] ""

/-- Go `pluginImports`. `singles` holds the registered objects in the order of
registration; a `Single` handle is the position of its object in this list
(the Go slice holds the pointers that `NewImport` handed out). The `generator`
pointer is the one generator of the run, passed to the methods that read it. -/
structure pluginImports where
  singles : List importedPackage
deriving DecidableEq, Repr

/-- Go `NewPluginImports`. -/
def NewPluginImports : pluginImports :=
  { singles := [] }

/-- Go `(*pluginImports).NewImport`: the registry after the call and the
returned handle. -/
def pluginImports.NewImport (this : pluginImports) (g : Generator) (pkg : String) :
    pluginImports × Nat :=
  let imp := newImportedPackage g.ImportPrefix pkg
  ({ singles := this.singles ++ [imp] }, this.singles.length)

/-- Go `(*pluginImports).GenerateImports`: the generator after the loop. -/
def pluginImports.GenerateImports (Quote : String → String) (this : pluginImports)
    (g : Generator) (_file : FileDescriptor) : Generator :=
  this.singles.foldl (fun g s => if s.IsUsed then g.P (s.Generate Quote) else g) g

/-- The state that calls of `NewImport` and `Use` work on in one batch: the
registry with its handles, and the table of package names in use. -/
structure Batch where
  imports : pluginImports
  pkgNamesInUse : List String
deriving DecidableEq, Repr

/-- Calling `Use` on the handle `h` of the registry: the state after the call
and the returned alias. A position that names no handle cannot be written in
the source (handles only come from `NewImport`); the state is left as it is. -/
def Batch.Use (A : Allocator) (b : Batch) (h : Nat) : Batch × String :=
  match b.imports.singles[h]? with
  | none => (b, "")
  | some s =>
    let r := s.Use A b.pkgNamesInUse
    ({ imports := { singles := b.imports.singles.set h r.1 }, pkgNamesInUse := r.2.1 }, r.2.2)

/-- Calling `NewImport` on the registry of the batch. -/
def Batch.NewImport (b : Batch) (g : Generator) (pkg : String) : Batch × Nat :=
  ({ b with imports := (b.imports.NewImport g pkg).1 }, (b.imports.NewImport g pkg).2)

/-- The batch after two `NewImport` requests for the path `pkg`, `Use` on the
first returned handle and then `Use` on the second. -/
def Batch.twoRequestsUsed (b : Batch) (A : Allocator) (g : Generator) (pkg : String) : Batch :=
  ((((b.NewImport g pkg).1.NewImport g pkg).1.Use A (b.NewImport g pkg).2).1.Use A
    ((b.NewImport g pkg).1.NewImport g pkg).2).1

/-- One call made by a generation strategy. -/
inductive Call where
  | NewImport (pkg : String)
  | Use (handle : Nat)
deriving DecidableEq, Repr

/-- The state after one call. -/
def Batch.call (A : Allocator) (g : Generator) (b : Batch) : Call → Batch
  | .NewImport pkg => (b.NewImport g pkg).1
  | .Use h => (b.Use A h).1

/-- The state after a sequence of calls, first call first. -/
def Batch.run (A : Allocator) (g : Generator) (b : Batch) (calls : List Call) : Batch :=
  calls.foldl (Batch.call A g) b

/-- Every `Use` of the sequence is made on a handle that an earlier `NewImport`
returned (or one of the `n` handles present at the start). -/
def validCalls : Nat → List Call → Bool
  | _, [] => true
  | n, .NewImport _ :: cs => validCalls (n + 1) cs
  | n, .Use h :: cs => decide (h < n) && validCalls n cs

/-- The paths of the `NewImport` calls of a sequence, in call order: the i-th
entry is the path of the handle at position i of a registry that was empty
at the start. -/
def requested : List Call → List String
  | [] => []
  | .NewImport pkg :: cs => pkg :: requested cs
  | .Use _ :: cs => requested cs

/-- The handles whose declaration `GenerateImports` prints, in print order. -/
def pluginImports.declaring (this : pluginImports) : List importedPackage :=
  this.singles.filter (fun s => s.IsUsed)

/-- Whether position `i` of the registry holds a handle whose `IsUsed` is true. -/
def pluginImports.usedAt (this : pluginImports) (i : Nat) : Bool :=
  match this.singles[i]? with
  | some s => s.IsUsed
  | none => false

/-- The alias of every used handle is recorded in the table of names in use. -/
def Batch.aliasesRecorded (b : Batch) : Prop :=
  ∀ (i : Nat) (s : importedPackage),
    b.imports.singles[i]? = some s → s.used = true → s.name ∈ b.pkgNamesInUse

/-- Two used handles at different positions of the registry have different
aliases. -/
def Batch.aliasesDistinct (b : Batch) : Prop :=
  ∀ (i j : Nat) (s t : importedPackage),
    b.imports.singles[i]? = some s → b.imports.singles[j]? = some t →
      s.used = true → t.used = true → i ≠ j → s.name ≠ t.name

/-- Length of the longest name of a list. -/
def longest : List String → Nat
  | [] => 0
  | s :: ss => max s.length (longest ss)

/-- A concrete allocator: the path itself when that name is free, otherwise
the path followed by enough underscores to be longer than every name in use. -/
def suffixPick (pkg : String) (inUse : List String) : String :=
  if pkg ∈ inUse then pkg ++ String.mk (List.replicate (longest inUse + 1 - pkg.length) '_')
  else pkg

/-- The concrete allocator built on `suffixPick`. -/
def suffixAllocator : Allocator where
  pick := suffixPick
  fresh := by
    intro pkg inUse
    have hlen : ∀ (s : String) (ss : List String), s ∈ ss → s.length ≤ longest ss := by
      intro s ss
      induction ss with
      | nil => intro h; cases h
      | cons a as ih =>
        intro h
        rcases List.mem_cons.mp h with rfl | h
        · simp [longest]
        · have := ih h
          simp only [longest]
          omega
    have hk : ∀ k : Nat, (String.mk (List.replicate k '_')).length = k := fun k =>
      List.length_replicate k '_'
    unfold suffixPick
    split
    · intro hmem
      have h := hlen _ _ hmem
      rw [String.length_append, hk] at h
      omega
    · assumption

/-- Quoting of a text without characters that need escaping: what
`strconv.Quote` returns for such a text. -/
def plainQuote (s : String) : String :=
  "\"" ++ s ++ "\""

/-- The generator before anything is printed, with an empty import prefix. -/
def emptyGenerator : Generator :=
  { ImportPrefix := "", Buffer := [] }

/-- The batch at its start: no handle registered, the names of `inUse` taken. -/
def Batch.start (inUse : List String) : Batch :=
  { imports := NewPluginImports, pkgNamesInUse := inUse }

/-- The handles requested for the path `p` on which `Use` was called, for a
registry that was empty at the start: handle `i` is the one returned by the
i-th `NewImport` of the sequence. -/
def usedHandlesFor (calls : List Call) (p : String) : List Nat :=
  (List.range (requested calls).length).filter
    (fun i => decide (Call.Use i ∈ calls) && decide ((requested calls)[i]? = some p))

/-- One operation of helper.go on the registry and its handles. -/
inductive Op where
  | NewImport (pkg : String)
  | Use (handle : Nat)
  | IsUsed (handle : Nat)
  | Generate (handle : Nat)
  | GenerateImports (file : FileDescriptor)
deriving DecidableEq, Repr

/-- The state the operations work on: the batch and the generator. -/
structure World where
  batch : Batch
  generator : Generator
deriving DecidableEq, Repr

/-- The state after one operation. `IsUsed` and `Generate` only read the
fields of their handle; `GenerateImports` prints into the generator. -/
def World.step (A : Allocator) (Quote : String → String) (w : World) : Op → World
  | .NewImport pkg => { w with batch := (w.batch.NewImport w.generator pkg).1 }
  | .Use h => { w with batch := (w.batch.Use A h).1 }
  | .IsUsed _ => w
  | .Generate _ => w
  | .GenerateImports file =>
    { w with generator := w.batch.imports.GenerateImports Quote w.generator file }

/-- The state after a sequence of operations, first operation first. -/
def World.run (A : Allocator) (Quote : String → String) (w : World) (ops : List Op) : World :=
  ops.foldl (World.step A Quote) w

/-! ## The generation pipeline -/

/-- The bytes of a buffer: its chunks one after the other. -/
def concat : List String → String
  | [] => ""
  | c :: cs => c ++ concat cs

/-- Go `g.Reset()`, the method of the embedded `bytes.Buffer`. -/
def Generator.Reset (g : Generator) : Generator :=
  { g with Buffer := [] }

/-- Go `g.Write(p)`, the method of the embedded `bytes.Buffer`. -/
def Generator.Write (g : Generator) (p : String) : Generator :=
  { g with Buffer := g.Buffer ++ [p] }

/-- Go `g.String()`, the method of the embedded `bytes.Buffer`. -/
def Generator.String (g : Generator) : String :=
  concat g.Buffer

/-- What `generatePlugin` and `GeneratePlugin` call that is declared outside
helper.go. `ParseFile` stands for `parser.ParseFile` on the text read from the
generator and `Fprint` for the printer with the configuration of line 197,
each giving its result or its error text; `generateHeader` gives the chunks
that `g.generateHeader()` prints; `FileOf` and `goFileName` stand for the
functions of these names. -/
structure Externals where
  Ast : Type
  ParseFile : String → Except String Ast
  Fprint : Ast → Except String String
  generateHeader : Generator → List String
  FileOf : Generator → FileDescriptor → FileDescriptor
  goFileName : String → String

/-- Go `g.generateHeader()`, declared outside helper.go: prints the header
block. -/
def Generator.generateHeader (E : Externals) (g : Generator) : Generator :=
  { g with Buffer := g.Buffer ++ E.generateHeader g }

/-- Go `Plugin`, the interface of a generation strategy. The strategy is
opaque: each method takes the strategy's own state and the generator and
returns both. A method call that does not return ends the run; the methods
here are the calls that return. -/
structure Plugin (σ : Type) where
  Init : σ → Generator → σ × Generator
  Generate : σ → Generator → FileDescriptor → σ × Generator
  GenerateImports : σ → Generator → Option FileDescriptor → σ × Generator

/-- Go `generatePlugin`, lines 176-187: up to the point where the generator is
handed to the parser. -/
def Generator.assemble {σ : Type} (E : Externals) (p : Plugin σ) (s : σ) (g : Generator)
    (file : FileDescriptor) : σ × Generator :=
  let g := { g with file := some (E.FileOf g file), usedPackages := [] }
  -- Run the plugins before the imports so we know which imports are necessary.
  let r := p.Generate s g file
  -- Generate header and imports last, though they appear first in the output.
  let rem := r.2.Buffer
  let g := { r.2 with Buffer := [] }
  let g := g.generateHeader E
  let r := p.GenerateImports r.1 g g.file
  (r.1, r.2.Write (concat rem))

/-- Go `generatePlugin`: `assemble`, then lines 189-200, the reformatting. -/
def Generator.generatePlugin {σ : Type} (E : Externals) (p : Plugin σ) (s : σ) (g : Generator)
    (file : FileDescriptor) : Except Abort (σ × Generator) :=
  let r := g.assemble E p s file
  match E.ParseFile r.2.String with
  | .error err => Generator.Fail ["bad Go source code was generated:", err]
  | .ok ast =>
    let g := r.2.Reset
    match E.Fprint ast with
    | .error err => Generator.Fail ["generated Go source code could not be reformatted:", err]
    | .ok text => .ok (r.1, g.Write text)

/-- Tools for concrete runs: every text parses to itself and prints as it is,
the header is one comment line, and the output name adds ".pb.go". -/
def plainExternals : Externals where
  Ast := String
  ParseFile := fun text => .ok text
  Fprint := fun ast => .ok ast
  generateHeader := fun _ => ["// Code generated.\n"]
  FileOf := fun _ file => file
  goFileName := fun name => name ++ ".pb.go"

/-- A strategy for concrete runs, with a registry as its state: `Generate`
starts a new registry, requests the import "fmt", uses it and prints one line
that names the file;
`GenerateImports` is the one of the registry. -/
def plainPlugin : Plugin Batch where
  Init := fun s g => (s, g)
  Generate := fun s g file =>
    let s0 : Batch := { s with imports := NewPluginImports }
    (((s0.NewImport g "fmt").1.Use suffixAllocator (s0.NewImport g "fmt").2).1,
      g.P ("var _ = " ++ ((s0.NewImport g "fmt").1.Use suffixAllocator (s0.NewImport g "fmt").2).2
        ++ ".Sprint // " ++ file.Name ++ "\n"))
  GenerateImports := fun s g _ =>
    (s, s.imports.GenerateImports plainQuote g { Name := "" })

/-- The call `p.Generate(file)` of line 180 of `generatePlugin`: the state of
the strategy and the generator when it returns. The buffer of this
generator is the body. -/
def Generator.bodyRun {σ : Type} (E : Externals) (p : Plugin σ) (s : σ) (g : Generator)
    (file : FileDescriptor) : σ × Generator :=
  p.Generate s { g with file := some (E.FileOf g file), usedPackages := [] } file

/-- The generator after lines 183-185 of `generatePlugin`: the body is set
aside, the buffer is a new one, and the header is printed into it. -/
def Generator.headerRun {σ : Type} (E : Externals) (p : Plugin σ) (s : σ) (g : Generator)
    (file : FileDescriptor) : Generator :=
  Generator.generateHeader E { (g.bodyRun E p s file).2 with Buffer := [] }

/-- The call `p.GenerateImports(g.file)` of line 186 of `generatePlugin`: the
state of the strategy and the generator when it returns. -/
def Generator.importsRun {σ : Type} (E : Externals) (p : Plugin σ) (s : σ) (g : Generator)
    (file : FileDescriptor) : σ × Generator :=
  p.GenerateImports (g.bodyRun E p s file).1 (g.headerRun E p s file)
    (g.headerRun E p s file).file

/-- A generator for concrete runs: two files, the second one requested, and a
response with one slot. -/
def twoFileGenerator : Generator :=
  { ImportPrefix := "", Buffer := [],
    allFiles := [{ Name := "a.proto", addr := 1 }, { Name := "b.proto", addr := 2 }],
    genFiles := [{ Name := "b.proto", addr := 2 }],
    Response := { File := [none] } }

namespace strings

theorem splitChars_ne_nil (sep : Char) (cur cs : List Char) : splitChars sep cur cs ≠ [] := by
  induction cs generalizing cur with
  | nil => simp [splitChars]
  | cons c cs ih =>
    unfold splitChars
    split
    · simp
    · exact ih _

theorem splitChars_of_not_mem (sep : Char) (cur cs : List Char) (h : sep ∉ cs) :
    splitChars sep cur cs = [cur ++ cs] := by
  induction cs generalizing cur with
  | nil => simp [splitChars]
  | cons c cs ih =>
    have hc : c ≠ sep := fun e => h (e ▸ List.mem_cons_self _ _)
    have hcs : sep ∉ cs := fun m => h (List.mem_cons_of_mem _ m)
    simp [splitChars, hc, ih _ hcs]

theorem splitChars_append_sep (sep : Char) (cur a b : List Char) (h : sep ∉ b) :
    splitChars sep cur (a ++ sep :: b) = splitChars sep cur a ++ [b] := by
  induction a generalizing cur with
  | nil => simp [splitChars, splitChars_of_not_mem sep [] b h]
  | cons c a ih =>
    by_cases hc : c = sep
    · simp [splitChars, hc, ih]
    · simp [splitChars, hc, ih]

theorem Join_cons_of_ne_nil (a : String) (rest : List String) (sep : String) (h : rest ≠ []) :
    Join (a :: rest) sep = a ++ sep ++ Join rest sep := by
  cases rest with
  | nil => exact absurd rfl h
  | cons b rest => rfl

theorem Join_splitChars (sep : Char) (cur cs : List Char) :
    Join ((splitChars sep cur cs).map String.mk) (String.mk [sep]) = String.mk (cur ++ cs) := by
  induction cs generalizing cur with
  | nil => simp [splitChars, Join]
  | cons c cs ih =>
    by_cases hc : c = sep
    · have hne : (splitChars sep [] cs).map String.mk ≠ [] := by
        simpa using splitChars_ne_nil sep [] cs
      simp only [splitChars, hc, if_true, List.map_cons]
      rw [Join_cons_of_ne_nil _ _ _ hne, ih]
      apply String.ext
      simp
    · simp only [splitChars, hc, if_false]
      rw [ih]
      simp

/-- Splitting never yields the empty list. -/
theorem Split_ne_nil (s : String) (sep : Char) : Split s sep ≠ [] := by
  simpa [Split] using splitChars_ne_nil sep [] s.data

/-- A text without the separator is its own single piece. -/
theorem Split_of_not_mem (s : String) (sep : Char) (h : sep ∉ s.data) : Split s sep = [s] := by
  simp [Split, splitChars_of_not_mem sep [] s.data h]

/-- Splitting at the separator: the pieces of the text before the last
separator, then the text after it. -/
theorem Split_append_sep (a b : String) (sep : Char) (h : sep ∉ b.data) :
    Split (a ++ String.mk [sep] ++ b) sep = Split a sep ++ [b] := by
  simp [Split, splitChars_append_sep sep [] a.data b.data h]

/-- Joining the pieces with the separator gives the text back. -/
theorem Join_Split (s : String) (sep : Char) : Join (Split s sep) (String.mk [sep]) = s := by
  simpa [Split] using Join_splitChars sep [] s.data

theorem replaceChars_single (a b : Char) (fuel : Nat) (s : List Char) (h : s.length ≤ fuel) :
    replaceChars [a] [b] fuel s = s.map (fun c => if c = a then b else c) := by
  induction fuel generalizing s with
  | zero =>
    have : s = [] := List.length_eq_zero.mp (Nat.le_zero.mp h)
    subst this
    rfl
  | succ fuel ih =>
    cases s with
    | nil => rfl
    | cons c cs =>
      have hcs : cs.length ≤ fuel := by simpa using h
      by_cases e : c = a
      · subst e
        simp [replaceChars, List.isPrefixOf, ih cs hcs]
      · have e2 : ¬ a = c := fun x => e x.symm
        simp [replaceChars, List.isPrefixOf, ih cs hcs, e, e2]

/-- Replacing a one-character text by a one-character text maps the characters
one by one. -/
theorem Replace_single (s : String) (a b : Char) :
    Replace s (String.mk [a]) (String.mk [b])
      = String.mk (s.data.map (fun c => if c = a then b else c)) := by
  simp only [Replace]
  rw [replaceChars_single a b s.length s.data (Nat.le_refl _)]

theorem replaceChars_nil (old new : List Char) (fuel : Nat) :
    replaceChars old new fuel [] = [] := by
  cases fuel <;> rfl

/-- With a non-empty `old`, any fuel that covers the length of the text gives
the same result. -/
theorem replaceChars_fuel (old new : List Char) (hold : old ≠ []) (f1 f2 : Nat) (s : List Char)
    (h1 : s.length ≤ f1) (h2 : s.length ≤ f2) :
    replaceChars old new f1 s = replaceChars old new f2 s := by
  induction f1 generalizing f2 s with
  | zero =>
    have : s = [] := List.length_eq_zero.mp (Nat.le_zero.mp h1)
    subst this
    rw [replaceChars_nil, replaceChars_nil]
  | succ n ih =>
    cases s with
    | nil => rw [replaceChars_nil, replaceChars_nil]
    | cons c cs =>
      cases f2 with
      | zero => simp at h2
      | succ m =>
        have hk : 1 ≤ old.length := List.length_pos.mpr hold
        have hc1 : cs.length ≤ n := by simpa using h1
        have hc2 : cs.length ≤ m := by simpa using h2
        have hd : ((c :: cs).drop old.length).length ≤ cs.length := by
          rw [List.length_drop, List.length_cons]
          omega
        simp only [replaceChars]
        split
        · rw [ih m _ (by omega) (by omega)]
        · rw [ih m _ hc1 hc2]

theorem isPrefixOf_append_sep (old x y : List Char) (c : Char) (hc : c ∉ old) :
    old.isPrefixOf (x ++ c :: y) = old.isPrefixOf x := by
  induction old generalizing x with
  | nil => simp [List.isPrefixOf]
  | cons o os ih =>
    have ho : ¬ o = c := fun e => hc (e ▸ List.mem_cons_self _ _)
    have hos : c ∉ os := fun m => hc (List.mem_cons_of_mem _ m)
    cases x with
    | nil => simp [List.isPrefixOf, ho]
    | cons a x => simp [List.isPrefixOf, ih x hos]

/-- A character that does not occur in `old` cuts the scan in two: the text
before it and the text after it are replaced on their own. -/
theorem replaceChars_append_sep (old new : List Char) (hold : old ≠ []) (c : Char)
    (hc : c ∉ old) (fuel : Nat) (x y : List Char) (h : x.length + 1 + y.length ≤ fuel) :
    replaceChars old new fuel (x ++ c :: y)
      = replaceChars old new x.length x ++ c :: replaceChars old new y.length y := by
  induction fuel generalizing x with
  | zero => omega
  | succ n ih =>
    cases x with
    | nil =>
      have hp : old.isPrefixOf (c :: y) = false := by
        have := isPrefixOf_append_sep old [] y c hc
        simp only [List.nil_append] at this
        rw [this]
        cases old with
        | nil => exact absurd rfl hold
        | cons o os => rfl
      simp only [List.nil_append, replaceChars, hp, List.length_nil]
      rw [replaceChars_fuel old new hold n y.length y (by simp at h; omega) (Nat.le_refl _)]
      simp
    | cons a x =>
      have hp : old.isPrefixOf (a :: x ++ c :: y) = old.isPrefixOf (a :: x) :=
        isPrefixOf_append_sep old (a :: x) y c hc
      have hlen : x.length + 1 + y.length ≤ n := by simp at h; omega
      simp only [List.cons_append, List.length_cons, replaceChars, List.append_eq]
      simp only [List.cons_append] at hp
      rw [hp]
      by_cases hpre : old.isPrefixOf (a :: x) = true
      · have hle : old.length ≤ (a :: x).length :=
          (List.isPrefixOf_iff_prefix.mp hpre).length_le
        have hk : 1 ≤ old.length := List.length_pos.mpr hold
        have hdrop : (a :: (x ++ c :: y)).drop old.length
            = (a :: x).drop old.length ++ c :: y := by
          rw [← List.cons_append, List.drop_append_of_le_length hle]
        have hdl : ((a :: x).drop old.length).length ≤ x.length := by
          rw [List.length_drop, List.length_cons]
          omega
        simp only [hpre, if_true]
        rw [hdrop, ih _ (by omega),
          replaceChars_fuel old new hold x.length _ _ hdl (Nat.le_refl _)]
        simp
      · simp only [hpre, if_false, Bool.false_eq_true]
        rw [ih x hlen]
        simp

/-- Removing the occurrences of `old` keeps every character that is not one of
`old`. -/
theorem count_replaceChars_nil (old : List Char) (c : Char) (hc : c ∉ old) (fuel : Nat)
    (s : List Char) : (replaceChars old [] fuel s).count c = s.count c := by
  induction fuel generalizing s with
  | zero => rfl
  | succ n ih =>
    cases s with
    | nil => rfl
    | cons a cs =>
      simp only [replaceChars]
      by_cases hpre : old.isPrefixOf (a :: cs) = true
      · simp only [hpre, if_true, List.nil_append]
        rw [ih]
        have htake : old = (a :: cs).take old.length :=
          List.prefix_iff_eq_take.mp (List.isPrefixOf_iff_prefix.mp hpre)
        have hsplit : (a :: cs).count c
            = ((a :: cs).take old.length).count c + ((a :: cs).drop old.length).count c := by
          rw [← List.count_append, List.take_append_drop]
        rw [hsplit, ← htake, List.count_eq_zero_of_not_mem hc]
        simp
      · simp only [hpre, if_false, Bool.false_eq_true]
        rw [List.count_cons, List.count_cons, ih]

/-- Splitting gives one piece more than there are separators. -/
theorem length_splitChars (sep : Char) (cur cs : List Char) :
    (splitChars sep cur cs).length = cs.count sep + 1 := by
  induction cs generalizing cur with
  | nil => simp [splitChars]
  | cons c cs ih =>
    by_cases hc : c = sep
    · subst hc
      simp [splitChars, ih]
    · have hc2 : ¬ (c == sep) = true := by simpa using hc
      simp [splitChars, hc, ih, List.count_cons, hc2]

theorem length_Split (s : String) (sep : Char) :
    (Split s sep).length = s.data.count sep + 1 := by
  simp [Split, length_splitChars]

/-- `Replace` cut at a character that does not occur in `old`. -/
theorem Replace_append_sep (a b old new : String) (c : Char) (hold : old.data ≠ [])
    (hc : c ∉ old.data) :
    Replace (a ++ String.mk [c] ++ b) old new
      = Replace a old new ++ String.mk [c] ++ Replace b old new := by
  have hd : (a ++ String.mk [c] ++ b).data = a.data ++ c :: b.data := by simp
  have hl : (a ++ String.mk [c] ++ b).length = a.data.length + 1 + b.data.length := by
    show (a ++ String.mk [c] ++ b).data.length = _
    rw [hd, List.length_append, List.length_cons]
    omega
  apply String.ext
  simp only [Replace, hd, hl]
  rw [replaceChars_append_sep old.data new.data hold c hc _ a.data b.data (Nat.le_refl _)]
  simp only [String.data_append, List.append_assoc, List.singleton_append, String.length]

/-- Removing the occurrences of `old` keeps the number of occurrences of a
character that is not one of `old`. -/
theorem count_Replace_empty (s old : String) (c : Char) (hc : c ∉ old.data) :
    (Replace s old "").data.count c = s.data.count c := by
  simp only [Replace]
  exact count_replaceChars_nil old.data c hc _ _

end strings

/-! ## Theorems: custom types -/

/-- What `getCustomType` returns for an annotation with a '.': `a` is the text
before the final '.', `b` the text after it. -/
theorem getCustomType_of_dot (a b : String) (h : '.' ∉ b.data) :
    getCustomType (fieldWithCustomType (a ++ "." ++ b)) =
      (strings.Replace (strings.Replace a "/" "_") "." "_" ++ "." ++ b, a, none) := by
  have hs : strings.Split (a ++ "." ++ b) '.' = strings.Split a '.' ++ [b] :=
    strings.Split_append_sep a b '.' h
  have hlen : 1 ≤ (strings.Split a '.').length :=
    List.length_pos.mpr (strings.Split_ne_nil a '.')
  have hjoin : strings.Join (strings.Split a '.') "." = a := strings.Join_Split a '.'
  have h1 : ¬ (strings.Split a '.').length + 1 = 1 := by omega
  have h2 : (strings.Split a '.').length + 1 ≥ 2 := by omega
  simp only [getCustomType, fieldWithCustomType, hs, List.length_append, List.length_singleton,
    h1, h2, if_true, if_false, Nat.add_sub_cancel, List.take_left', hjoin]
  simp [List.getD_eq_getElem?_getD]

/-- What `getCustomType` returns for an annotation without a '.'. -/
theorem getCustomType_of_no_dot (ctype : String) (h : '.' ∉ ctype.data) :
    getCustomType (fieldWithCustomType ctype) = ("", "", none) := by
  simp [getCustomType, fieldWithCustomType, strings.Split_of_not_mem ctype '.' h]

/-- The error result of `getCustomType` is nil on every path. -/
theorem getCustomType_err_nil (field : FieldDescriptorProto) :
    (getCustomType field).2.2 = none := by
  rcases field with ⟨_ | ⟨⟨v, err⟩⟩, tn⟩
  · rfl
  · rcases err with _ | e
    · rcases v with _ | ctype
      · rfl
      · simp only [getCustomType]
        split
        · rfl
        · split <;> rfl
    · rfl

/-- Claim C1, evaluated on the code: for the annotation "foo/bar.Baz"
`getCustomType` returns no error, but its first result is the type reference
"foo_bar.Baz" and its second result the import path "foo/bar"; the claim and
the result names of the signature put the import path first and the type
reference second. -/
theorem getCustomType_qualified_results_swapped :
    getCustomType (fieldWithCustomType "foo/bar.Baz") = ("foo_bar.Baz", "foo/bar", none) := by
  decide

/-- Claim C2, evaluated on the code: for the annotation "Baz", which has no
'.', `getCustomType` returns an empty import path, an empty type reference and
no error; the claim has the annotation "Baz" as the type reference. -/
theorem getCustomType_unqualified_drops_type :
    getCustomType (fieldWithCustomType "Baz") = ("", "", none) := by
  decide

/-- Claim C3: `getCustomType` returns an empty import path, an empty type
reference and a nil error when the field has no options, when reading the
customtype extension fails (whatever value comes with the error), when the
extension value is a nil pointer (whatever error comes with it), and when the
annotation is the empty string. -/
theorem getCustomType_absent_annotation :
    (∀ tn : Option String, getCustomType { Options := none, TypeName := tn } = ("", "", none))
    ∧ (∀ (v : Option String) (e : String) (tn : Option String),
        getCustomType
            { Options := some { customtype := { v := v, err := some e } }, TypeName := tn }
          = ("", "", none))
    ∧ (∀ (err : error) (tn : Option String),
        getCustomType
            { Options := some { customtype := { v := none, err := err } }, TypeName := tn }
          = ("", "", none))
    ∧ (∀ tn : Option String,
        getCustomType
            { Options := some { customtype := { v := some "", err := none } }, TypeName := tn }
          = ("", "", none)) := by
  refine ⟨fun tn => rfl, fun v e tn => rfl, fun err tn => ?_, fun tn => ?_⟩
  · cases err <;> rfl
  · simp only [getCustomType]
    decide

/-- Claim C4 as stated fails: no present annotation string makes the err
result of `getCustomType` non-nil. -/
theorem getCustomType_no_annotation_fails :
    ¬ ∃ ctype : String, (getCustomType (fieldWithCustomType ctype)).2.2 ≠ none := by
  rintro ⟨ctype, h⟩
  exact h (getCustomType_err_nil _)

/-- Claim C4, amended: for every present annotation string the err result of
`getCustomType` is nil, and the result is the one of the one-component branch
or the one of the branch for two or more components: splitting always yields
at least one component, so the branch that builds the "dot-separated" error
is not reached. -/
theorem getCustomType_present_annotation_err_nil (ctype : String) :
    (getCustomType (fieldWithCustomType ctype)).2.2 = none
    ∧ ((strings.Split ctype '.').length = 1 ∨ (strings.Split ctype '.').length ≥ 2) := by
  refine ⟨getCustomType_err_nil _, ?_⟩
  have := List.length_pos.mpr (strings.Split_ne_nil ctype '.')
  omega

/-! ## Theorems: the import registry -/

theorem GenerateImports_foldl (Quote : String → String) (l : List importedPackage)
    (g : Generator) :
    (l.foldl (fun g s => if s.IsUsed then g.P (s.Generate Quote) else g) g).Buffer
        = g.Buffer ++ ((l.filter (fun s => s.IsUsed)).map (fun s => s.Generate Quote))
    ∧ (l.foldl (fun g s => if s.IsUsed then g.P (s.Generate Quote) else g) g).ImportPrefix
        = g.ImportPrefix := by
  induction l generalizing g with
  | nil => simp
  | cons s l ih =>
    by_cases hs : s.IsUsed = true
    · have h := ih (g.P (s.Generate Quote))
      simp only [List.foldl_cons, hs, if_true, List.filter_cons, List.map_cons]
      refine ⟨h.1.trans ?_, h.2⟩
      simp [Generator.P]
    · simp [List.foldl_cons, hs, ih]

theorem call_NewImport (A : Allocator) (g : Generator) (b : Batch) (p : String) :
    Batch.call A g b (.NewImport p)
      = { imports := { singles := b.imports.singles ++ [newImportedPackage g.ImportPrefix p] },
          pkgNamesInUse := b.pkgNamesInUse } := rfl

theorem call_Use_none (A : Allocator) (g : Generator) (b : Batch) (h : Nat)
    (hn : b.imports.singles[h]? = none) : Batch.call A g b (.Use h) = b := by
  simp [Batch.call, Batch.Use, hn]

theorem call_Use_some (A : Allocator) (g : Generator) (b : Batch) (h : Nat) (s : importedPackage)
    (hs : b.imports.singles[h]? = some s) :
    Batch.call A g b (.Use h)
      = { imports := { singles := b.imports.singles.set h (s.Use A b.pkgNamesInUse).1 },
          pkgNamesInUse := (s.Use A b.pkgNamesInUse).2.1 } := by
  simp [Batch.call, Batch.Use, hs]

theorem Use_pkg (A : Allocator) (s : importedPackage) (u : List String) :
    (s.Use A u).1.pkg = s.pkg ∧ (s.Use A u).1.importPrefix = s.importPrefix
    ∧ (s.Use A u).1.used = true := by
  unfold importedPackage.Use
  cases hu : s.used <;> simp [hu]

theorem map_set_same {α β : Type} (f : α → β) (l : List α) (h : Nat) (s x : α)
    (hs : l[h]? = some s) (hx : f x = f s) : (l.set h x).map f = l.map f := by
  induction l generalizing h with
  | nil => simp
  | cons a l ih =>
    cases h with
    | zero =>
      simp at hs
      simp [hs, hx]
    | succ h =>
      simp at hs
      simp [ih h hs]

theorem call_length (A : Allocator) (g : Generator) (b : Batch) (c : Call) :
    (Batch.call A g b c).imports.singles.length
      = b.imports.singles.length + (requested [c]).length := by
  cases c with
  | NewImport p => simp [call_NewImport, requested]
  | Use h =>
    cases hs : b.imports.singles[h]? with
    | none => simp [call_Use_none A g b h hs, requested]
    | some s => simp [call_Use_some A g b h s hs, requested]

theorem call_pkgs (A : Allocator) (g : Generator) (b : Batch) (c : Call) :
    (Batch.call A g b c).imports.singles.map (fun s => s.pkg)
      = b.imports.singles.map (fun s => s.pkg) ++ requested [c] := by
  cases c with
  | NewImport p => simp [call_NewImport, requested, newImportedPackage]
  | Use h =>
    cases hs : b.imports.singles[h]? with
    | none => simp [call_Use_none A g b h hs, requested]
    | some s =>
      simp only [call_Use_some A g b h s hs, requested, List.append_nil]
      exact map_set_same _ _ h s _ hs (Use_pkg A s _).1

theorem requested_cons (c : Call) (cs : List Call) :
    requested (c :: cs) = requested [c] ++ requested cs := by
  cases c <;> simp [requested]

/-- The paths of the registered handles, in registry order, after a sequence of
calls: those present at the start, then the requested ones in call order. -/
theorem run_pkgs (A : Allocator) (g : Generator) (b : Batch) (calls : List Call) :
    (Batch.run A g b calls).imports.singles.map (fun s => s.pkg)
      = b.imports.singles.map (fun s => s.pkg) ++ requested calls := by
  induction calls generalizing b with
  | nil => simp [Batch.run, requested]
  | cons c cs ih =>
    have := ih (Batch.call A g b c)
    simp only [Batch.run, List.foldl_cons] at this ⊢
    rw [this, call_pkgs, List.append_assoc, ← requested_cons]

theorem usedAt_call_NewImport (A : Allocator) (g : Generator) (b : Batch) (p : String) (i : Nat) :
    (Batch.call A g b (.NewImport p)).imports.usedAt i = b.imports.usedAt i := by
  simp only [call_NewImport, pluginImports.usedAt]
  rcases Nat.lt_trichotomy i b.imports.singles.length with hlt | heq | hgt
  · rw [List.getElem?_append_left hlt]
  · subst heq
    simp [newImportedPackage, importedPackage.IsUsed]
  · have h1 : b.imports.singles[i]? = none := List.getElem?_eq_none (by omega)
    have h2 : (b.imports.singles ++ [newImportedPackage g.ImportPrefix p])[i]? = none :=
      List.getElem?_eq_none (by simp; omega)
    rw [h1, h2]

theorem usedAt_call_Use (A : Allocator) (g : Generator) (b : Batch) (h i : Nat)
    (hh : h < b.imports.singles.length) :
    (Batch.call A g b (.Use h)).imports.usedAt i = (b.imports.usedAt i || decide (i = h)) := by
  have hs : b.imports.singles[h]? = some b.imports.singles[h] := List.getElem?_eq_getElem hh
  rw [call_Use_some A g b h _ hs]
  simp only [pluginImports.usedAt, List.getElem?_set]
  by_cases e : h = i
  · subst e
    simp [hh, importedPackage.IsUsed, (Use_pkg A _ _).2.2]
  · have e2 : ¬ i = h := fun x => e x.symm
    simp [e, e2]

/-- After a valid sequence of calls a position holds a used handle exactly when
it did at the start or `Use` was called on it. -/
theorem run_usedAt (A : Allocator) (g : Generator) (b : Batch) (calls : List Call)
    (hv : validCalls b.imports.singles.length calls = true) (i : Nat) :
    (Batch.run A g b calls).imports.usedAt i
      = (b.imports.usedAt i || decide (Call.Use i ∈ calls)) := by
  induction calls generalizing b with
  | nil => simp [Batch.run]
  | cons c cs ih =>
    simp only [Batch.run, List.foldl_cons] at ih ⊢
    cases c with
    | NewImport p =>
      have hv2 : validCalls (Batch.call A g b (.NewImport p)).imports.singles.length cs = true := by
        rw [call_length]
        simpa [validCalls, requested] using hv
      rw [ih _ hv2, usedAt_call_NewImport]
      simp
    | Use h =>
      simp only [validCalls, Bool.and_eq_true, decide_eq_true_eq] at hv
      have hv2 : validCalls (Batch.call A g b (.Use h)).imports.singles.length cs = true := by
        rw [call_length]
        simpa [requested] using hv.2
      rw [ih _ hv2, usedAt_call_Use A g b h i hv.1]
      by_cases e : i = h <;> simp [e, Bool.or_assoc]

theorem countP_eq_countP_range {α : Type} (P : α → Bool) (l : List α) :
    l.countP P
      = (List.range l.length).countP
          (fun i => match l[i]? with
            | some a => P a
            | none => false) := by
  induction l using List.reverseRecOn with
  | nil => simp
  | append_singleton l a ih =>
    rw [List.length_append, List.length_singleton, List.range_succ, List.countP_append,
      List.countP_append, ih]
    congr 1
    · apply List.countP_congr
      intro i hi
      rw [List.getElem?_append_left (List.mem_range.mp hi)]
    · have h : (l ++ [a])[l.length]? = some a := by
        rw [List.getElem?_append_right (Nat.le_refl _)]
        simp
      simp only [List.countP_cons, List.countP_nil, h]

/-- A position holds a used handle after a sequence of calls only if it did at
the start or `Use` was called on it. -/
theorem run_usedAt_imp (A : Allocator) (g : Generator) (b : Batch) (calls : List Call) (i : Nat)
    (hu : (Batch.run A g b calls).imports.usedAt i = true) :
    b.imports.usedAt i = true ∨ Call.Use i ∈ calls := by
  induction calls generalizing b with
  | nil => exact Or.inl hu
  | cons c cs ih =>
    simp only [Batch.run, List.foldl_cons] at ih hu
    rcases ih _ hu with h | h
    · cases c with
      | NewImport p =>
        rw [usedAt_call_NewImport] at h
        exact Or.inl h
      | Use k =>
        by_cases hk : k < b.imports.singles.length
        · rw [usedAt_call_Use A g b k i hk] at h
          by_cases e : i = k
          · exact Or.inr (e ▸ List.mem_cons_self _ _)
          · simp [e] at h
            exact Or.inl h
        · rw [call_Use_none A g b k (List.getElem?_eq_none (by omega))] at h
          exact Or.inl h
    · exact Or.inr (List.mem_cons_of_mem _ h)

theorem usedAt_start (inUse : List String) (i : Nat) :
    (Batch.start inUse).imports.usedAt i = false := by
  simp [Batch.start, NewPluginImports, pluginImports.usedAt]

/-- Claim C5: for every registry state the chunks that `GenerateImports`
appends to the output are exactly the `Generate` strings of the registered
handles whose `IsUsed` is true, in registry order; the registry order is the
order of the `NewImport` requests; and a handle on which `Use` was never
called is not used, so it contributes no declaration. -/
theorem GenerateImports_declares_used_in_request_order :
    (∀ (Quote : String → String) (this : pluginImports) (g : Generator) (file : FileDescriptor),
        (this.GenerateImports Quote g file).Buffer
          = g.Buffer ++ (this.singles.filter (fun s => s.IsUsed)).map (fun s => s.Generate Quote))
    ∧ (∀ (A : Allocator) (g : Generator) (inUse : List String) (calls : List Call),
        (Batch.run A g (Batch.start inUse) calls).imports.singles.map (fun s => s.pkg)
          = requested calls)
    ∧ (∀ (A : Allocator) (g : Generator) (inUse : List String) (calls : List Call) (i : Nat),
        Call.Use i ∉ calls →
          (Batch.run A g (Batch.start inUse) calls).imports.usedAt i = false) := by
  refine ⟨fun Quote this g file => (GenerateImports_foldl Quote this.singles g).1, ?_, ?_⟩
  · intro A g inUse calls
    rw [run_pkgs]
    simp [Batch.start, NewPluginImports]
  · intro A g inUse calls i hi
    cases hu : (Batch.run A g (Batch.start inUse) calls).imports.usedAt i with
    | false => rfl
    | true =>
      rcases run_usedAt_imp A g _ calls i hu with h | h
      · rw [usedAt_start] at h
        cases h
      · exact absurd h hi

/-- Claim C5 at a concrete run: of two requested handles only the first is
used; the second is reported unused. -/
theorem GenerateImports_declares_used_in_request_order_witness :
    Call.Use 1 ∉ [Call.NewImport "a", Call.NewImport "b", Call.Use 0]
    ∧ (Batch.run suffixAllocator emptyGenerator (Batch.start [])
        [Call.NewImport "a", Call.NewImport "b", Call.Use 0]).imports.usedAt 1 = false :=
  ⟨by decide,
    GenerateImports_declares_used_in_request_order.2.2 suffixAllocator emptyGenerator []
      [Call.NewImport "a", Call.NewImport "b", Call.Use 0] 1 (by decide)⟩

/-- Claim C6 as stated fails: after `NewImport "a"`, `NewImport "a"`, `Use` on
the first handle and `Use` on the second, `GenerateImports` prints two
declarations for the path "a". -/
theorem GenerateImports_path_declared_twice :
    validCalls 0 [Call.NewImport "a", Call.NewImport "a", Call.Use 0, Call.Use 1] = true
    ∧ ((Batch.run suffixAllocator emptyGenerator (Batch.start [])
          [Call.NewImport "a", Call.NewImport "a", Call.Use 0, Call.Use 1]).imports.GenerateImports
            plainQuote emptyGenerator { Name := "f.proto" }).Buffer
        = ["import a \"a\"", "import a_ \"a\""]
    ∧ ((Batch.run suffixAllocator emptyGenerator (Batch.start [])
          [Call.NewImport "a", Call.NewImport "a", Call.Use 0, Call.Use 1]).imports.declaring.filter
            (fun s => s.pkg = "a")).length = 2 := by
  decide

/-- Claim C6, amended: declarations are per handle, not per path. After a
valid sequence of calls on a registry that was empty at the start, the
declarations that `GenerateImports` prints are those of the handles in
`declaring`, one each, and the number of them that are for the path `p` is
the number of handles requested for `p` on which `Use` was called. -/
theorem GenerateImports_one_declaration_per_used_handle (A : Allocator) (g : Generator)
    (inUse : List String) (calls : List Call) (p : String)
    (hv : validCalls 0 calls = true) :
    (∀ (Quote : String → String) (g1 : Generator) (file : FileDescriptor),
      ((Batch.run A g (Batch.start inUse) calls).imports.GenerateImports Quote g1 file).Buffer
        = g1.Buffer ++ (Batch.run A g (Batch.start inUse) calls).imports.declaring.map
            (fun s => s.Generate Quote))
    ∧ ((Batch.run A g (Batch.start inUse) calls).imports.declaring.filter
          (fun s => s.pkg = p)).length
        = (usedHandlesFor calls p).length := by
  refine ⟨fun Quote g1 file => (GenerateImports_foldl Quote _ g1).1, ?_⟩
  have hpk := run_pkgs A g (Batch.start inUse) calls
  have hlen : (Batch.run A g (Batch.start inUse) calls).imports.singles.length
      = (requested calls).length := by
    have := congrArg List.length hpk
    simpa [Batch.start, NewPluginImports] using this
  have hused := run_usedAt A g (Batch.start inUse) calls
    (by simpa [Batch.start, NewPluginImports] using hv)
  simp only [pluginImports.declaring, usedHandlesFor, List.filter_filter, ← List.countP_eq_length_filter]
  rw [countP_eq_countP_range, hlen]
  apply List.countP_congr
  intro i hi
  have hi2 : i < (Batch.run A g (Batch.start inUse) calls).imports.singles.length := by
    rw [hlen]; exact List.mem_range.mp hi
  have hget : (Batch.run A g (Batch.start inUse) calls).imports.singles[i]?
      = some (Batch.run A g (Batch.start inUse) calls).imports.singles[i] :=
    List.getElem?_eq_getElem hi2
  have hp : (requested calls)[i]?
      = some (Batch.run A g (Batch.start inUse) calls).imports.singles[i].pkg := by
    have := congrArg (fun l => l[i]?) hpk
    simp only [List.getElem?_map] at this
    rw [hget] at this
    simpa [Batch.start, NewPluginImports] using this.symm
  have hu := hused i
  rw [usedAt_start] at hu
  simp only [pluginImports.usedAt, hget, Bool.false_or] at hu
  rw [hget, hp]
  simp only [hu, Option.some.injEq]
  simp [Bool.and_comm]

/-- Claim C6, amended, at a concrete run: the path "a" is requested twice and
used through one handle, the path "b" is requested and never used. -/
theorem GenerateImports_one_declaration_per_used_handle_witness :
    validCalls 0 [Call.NewImport "a", Call.NewImport "b", Call.NewImport "a", Call.Use 2] = true
    ∧ ((Batch.run suffixAllocator emptyGenerator (Batch.start [])
          [Call.NewImport "a", Call.NewImport "b", Call.NewImport "a",
            Call.Use 2]).imports.declaring.filter (fun s => s.pkg = "a")).length
        = (usedHandlesFor [Call.NewImport "a", Call.NewImport "b", Call.NewImport "a", Call.Use 2]
            "a").length :=
  ⟨by decide,
    (GenerateImports_one_declaration_per_used_handle suffixAllocator emptyGenerator []
      [Call.NewImport "a", Call.NewImport "b", Call.NewImport "a", Call.Use 2] "a"
      (by decide)).2⟩

/-- The two ways a call of `Use` goes: on a used handle nothing changes and the
stored alias is returned; on an unused handle the allocator is called once. -/
theorem Use_cases (A : Allocator) (s : importedPackage) (u : List String) :
    (s.used = true ∧ s.Use A u = (s, u, s.name))
    ∨ (s.used = false
        ∧ s.Use A u = ({ s with name := A.pick s.pkg u, used := true },
                        A.pick s.pkg u :: u, A.pick s.pkg u)) := by
  unfold importedPackage.Use RegisterUniquePackageName
  cases hu : s.used <;> simp

theorem set_getElem?_self {α : Type} (l : List α) (i : Nat) (a : α) (h : l[i]? = some a) :
    l.set i a = l := by
  induction l generalizing i with
  | nil => simp
  | cons x l ih =>
    cases i with
    | zero =>
      simp at h
      simp [h]
    | succ i =>
      simp at h
      simp [ih i h]

/-- A used handle is left as it is by every call. -/
theorem call_keeps_used (A : Allocator) (g : Generator) (b : Batch) (c : Call) (i : Nat)
    (s : importedPackage) (hs : b.imports.singles[i]? = some s) (hu : s.used = true) :
    (Batch.call A g b c).imports.singles[i]? = some s := by
  have hi : i < b.imports.singles.length := by
    rcases Nat.lt_or_ge i b.imports.singles.length with h | h
    · exact h
    · rw [List.getElem?_eq_none h] at hs
      cases hs
  cases c with
  | NewImport p =>
    rw [call_NewImport]
    simp only []
    rw [List.getElem?_append_left hi]
    exact hs
  | Use k =>
    cases hk : b.imports.singles[k]? with
    | none => rw [call_Use_none A g b k hk]; exact hs
    | some t =>
      rw [call_Use_some A g b k t hk]
      simp only [List.getElem?_set]
      by_cases e : k = i
      · subst e
        have : t = s := Option.some.inj (hk.symm.trans hs)
        subst this
        rcases Use_cases A t b.pkgNamesInUse with ⟨_, h⟩ | ⟨h, _⟩
        · simp [hi, h]
        · rw [hu] at h
          cases h
      · simp [e, hs]

/-- A used handle is left as it is by every sequence of calls. -/
theorem run_keeps_used (A : Allocator) (g : Generator) (b : Batch) (calls : List Call) (i : Nat)
    (s : importedPackage) (hs : b.imports.singles[i]? = some s) (hu : s.used = true) :
    (Batch.run A g b calls).imports.singles[i]? = some s := by
  induction calls generalizing b with
  | nil => exact hs
  | cons c cs ih =>
    simp only [Batch.run, List.foldl_cons] at ih ⊢
    exact ih _ (call_keeps_used A g b c i s hs hu)

/-- Calling `Use` on a used handle of the batch returns its stored alias and
changes nothing. -/
theorem Batch_Use_used (A : Allocator) (b : Batch) (i : Nat) (s : importedPackage)
    (hs : b.imports.singles[i]? = some s) (hu : s.used = true) :
    b.Use A i = (b, s.name) := by
  rcases Use_cases A s b.pkgNamesInUse with ⟨_, h⟩ | ⟨h, _⟩
  · simp only [Batch.Use, hs, h, set_getElem?_self _ i s hs]
  · rw [hu] at h
    cases h

/-- Claim C8 as stated fails: on a registry that already holds a handle for
the path "a" (handle 0), `NewImport "a"` returns another handle and the list
of registered handles grows. -/
theorem NewImport_same_path_new_handle :
    (NewPluginImports.NewImport emptyGenerator "a").2 = 0
    ∧ (NewPluginImports.NewImport emptyGenerator "a").1.singles.map (fun s => s.pkg) = ["a"]
    ∧ ((NewPluginImports.NewImport emptyGenerator "a").1.NewImport emptyGenerator "a").2 = 1
    ∧ ((NewPluginImports.NewImport emptyGenerator "a").1.NewImport emptyGenerator "a").1.singles
        ≠ (NewPluginImports.NewImport emptyGenerator "a").1.singles := by
  decide

/-- Claim C8, amended: `NewImport` always registers a new handle, also for a
path that has a handle already: the new object is appended to the list of
registered handles, the handles registered before stay as they were, and the
returned handle is the new one. The call allocates nothing: the new handle
has `IsUsed` false and an empty alias, and the table of names in use is left
as it was. -/
theorem NewImport_appends_unused_handle (this : pluginImports) (g : Generator) (pkg : String)
    (b : Batch) :
    (this.NewImport g pkg).1.singles = this.singles ++ [newImportedPackage g.ImportPrefix pkg]
    ∧ (this.NewImport g pkg).2 = this.singles.length
    ∧ (this.NewImport g pkg).1.singles[(this.NewImport g pkg).2]?
        = some (newImportedPackage g.ImportPrefix pkg)
    ∧ (this.NewImport g pkg).1.singles.take this.singles.length = this.singles
    ∧ (newImportedPackage g.ImportPrefix pkg).IsUsed = false
    ∧ (newImportedPackage g.ImportPrefix pkg).name = ""
    ∧ (newImportedPackage g.ImportPrefix pkg).pkg = pkg
    ∧ (b.NewImport g pkg).1.pkgNamesInUse = b.pkgNamesInUse := by
  refine ⟨rfl, rfl, ?_, ?_, rfl, rfl, rfl, rfl⟩
  · simp [pluginImports.NewImport]
  · simp [pluginImports.NewImport]

/-- Claim C10: on a handle that has not been used, `Use` calls the allocator
once (the returned alias and the table of names in use are those of one
`RegisterUniquePackageName` call), stores the alias and marks the handle
used, leaving path and prefix alone; every later `Use` on the handle, whatever
the table of names in use is by then, returns that same alias and changes
neither the handle nor the table; and this stays so after any further calls
on the registry the handle is in. -/
theorem Use_stable_after_first_call (A : Allocator) (this : importedPackage)
    (pkgNamesInUse : List String) (h : this.used = false) :
    (this.Use A pkgNamesInUse).1.IsUsed = true
    ∧ (this.Use A pkgNamesInUse).2.2 = (RegisterUniquePackageName A this.pkg pkgNamesInUse).1
    ∧ (this.Use A pkgNamesInUse).2.1 = (RegisterUniquePackageName A this.pkg pkgNamesInUse).2
    ∧ (this.Use A pkgNamesInUse).1.name = (this.Use A pkgNamesInUse).2.2
    ∧ (this.Use A pkgNamesInUse).1.pkg = this.pkg
    ∧ (this.Use A pkgNamesInUse).1.importPrefix = this.importPrefix
    ∧ (∀ later : List String,
        (this.Use A pkgNamesInUse).1.Use A later
          = ((this.Use A pkgNamesInUse).1, later, (this.Use A pkgNamesInUse).2.2))
    ∧ (∀ (g : Generator) (b : Batch) (i : Nat) (calls : List Call),
        b.imports.singles[i]? = some (this.Use A pkgNamesInUse).1 →
          (Batch.run A g b calls).Use A i
            = (Batch.run A g b calls, (this.Use A pkgNamesInUse).2.2)) := by
  rcases Use_cases A this pkgNamesInUse with ⟨h1, _⟩ | ⟨_, h2⟩
  · rw [h] at h1
    cases h1
  · rw [h2]
    refine ⟨rfl, rfl, rfl, rfl, rfl, rfl, ?_, ?_⟩
    · intro later
      simp [importedPackage.Use]
    · intro g b i calls hs
      exact Batch_Use_used A _ i _ (run_keeps_used A g b calls i _ hs rfl) rfl

/-- Claim C10 at a concrete handle: the first `Use` of a new handle for the
path "a". -/
theorem Use_stable_after_first_call_witness :
    (newImportedPackage "" "a").used = false
    ∧ ((newImportedPackage "" "a").Use suffixAllocator []).1.IsUsed = true
    ∧ ((newImportedPackage "" "a").Use suffixAllocator []).2.2 = "a"
    ∧ (((newImportedPackage "" "a").Use suffixAllocator []).1.Use suffixAllocator ["b", "a"]).2.2
        = "a" :=
  ⟨rfl,
    (Use_stable_after_first_call suffixAllocator (newImportedPackage "" "a") [] rfl).1,
    by decide,
    by
      rw [(Use_stable_after_first_call suffixAllocator (newImportedPackage "" "a") [] rfl).2.2.2.2.2.2.1
        ["b", "a"]]
      decide⟩

theorem getElem?_set_cases {α : Type} (l : List α) (k i : Nat) (x s : α)
    (h : (l.set k x)[i]? = some s) : (i = k ∧ s = x) ∨ (i ≠ k ∧ l[i]? = some s) := by
  rw [List.getElem?_set] at h
  by_cases e : k = i
  · subst e
    simp only [if_true] at h
    split at h
    · exact Or.inl ⟨rfl, (Option.some.inj h).symm⟩
    · cases h
  · simp only [e, if_false] at h
    exact Or.inr ⟨fun x => e x.symm, h⟩

theorem getElem?_append_new (l : List importedPackage) (ip p : String) (i : Nat)
    (s : importedPackage) (h : (l ++ [newImportedPackage ip p])[i]? = some s)
    (hu : s.used = true) : l[i]? = some s := by
  rcases Nat.lt_trichotomy i l.length with hlt | heq | hgt
  · rwa [List.getElem?_append_left hlt] at h
  · subst heq
    rw [List.getElem?_append_right (Nat.le_refl _)] at h
    simp at h
    subst h
    cases hu
  · rw [List.getElem?_eq_none (by simp; omega)] at h
    cases h

/-- Each call keeps the aliases of the used handles recorded and distinct. -/
theorem call_preserves_aliases (A : Allocator) (g : Generator) (b : Batch) (c : Call)
    (h1 : b.aliasesRecorded) (h2 : b.aliasesDistinct) :
    (Batch.call A g b c).aliasesRecorded ∧ (Batch.call A g b c).aliasesDistinct := by
  cases c with
  | NewImport p =>
    rw [call_NewImport]
    constructor
    · intro i s hs hu
      exact h1 i s (getElem?_append_new _ _ _ i s hs hu) hu
    · intro i j s t hs ht hsu htu hij
      exact h2 i j s t (getElem?_append_new _ _ _ i s hs hsu)
        (getElem?_append_new _ _ _ j t ht htu) hsu htu hij
  | Use k =>
    cases hk : b.imports.singles[k]? with
    | none =>
      rw [call_Use_none A g b k hk]
      exact ⟨h1, h2⟩
    | some x =>
      rw [call_Use_some A g b k x hk]
      rcases Use_cases A x b.pkgNamesInUse with ⟨_, hx⟩ | ⟨hxu, hx⟩
      · rw [hx]
        simp only [set_getElem?_self _ k x hk]
        exact ⟨h1, h2⟩
      · rw [hx]
        have hfresh := A.fresh x.pkg b.pkgNamesInUse
        constructor
        · intro i s hs hu
          rcases getElem?_set_cases _ k i _ s hs with ⟨_, rfl⟩ | ⟨_, hold⟩
          · exact List.mem_cons_self _ _
          · exact List.mem_cons_of_mem _ (h1 i s hold hu)
        · intro i j s t hs ht hsu htu hij
          rcases getElem?_set_cases _ k i _ s hs with ⟨hi, rfl⟩ | ⟨hi, hsold⟩
          · rcases getElem?_set_cases _ k j _ t ht with ⟨hj, _⟩ | ⟨_, htold⟩
            · exact absurd (hi.trans hj.symm) hij
            · intro e
              have e2 : A.pick x.pkg b.pkgNamesInUse = t.name := e
              exact hfresh (e2 ▸ h1 j t htold htu)
          · rcases getElem?_set_cases _ k j _ t ht with ⟨_, rfl⟩ | ⟨_, htold⟩
            · intro e
              have e2 : s.name = A.pick x.pkg b.pkgNamesInUse := e
              exact hfresh (e2 ▸ h1 i s hsold hsu)
            · exact h2 i j s t hsold htold hsu htu hij

/-- Every sequence of calls keeps the aliases of the used handles recorded and
distinct. -/
theorem run_preserves_aliases (A : Allocator) (g : Generator) (b : Batch) (calls : List Call)
    (h1 : b.aliasesRecorded) (h2 : b.aliasesDistinct) :
    (Batch.run A g b calls).aliasesRecorded ∧ (Batch.run A g b calls).aliasesDistinct := by
  induction calls generalizing b with
  | nil => exact ⟨h1, h2⟩
  | cons c cs ih =>
    simp only [Batch.run, List.foldl_cons] at ih ⊢
    exact ih _ (call_preserves_aliases A g b c h1 h2).1 (call_preserves_aliases A g b c h1 h2).2

theorem start_aliases (inUse : List String) :
    (Batch.start inUse).aliasesRecorded ∧ (Batch.start inUse).aliasesDistinct := by
  constructor
  · intro i s hs
    simp [Batch.start, NewPluginImports] at hs
  · intro i j s t hs
    simp [Batch.start, NewPluginImports] at hs

/-- Claim C9: after every sequence of `NewImport` and `Use` calls in a batch
(whatever names were in use at its start), two used handles of the registry
with different import paths have different aliases: the stored names differ,
and so do the aliases that `Use` returns for them from then on. -/
theorem used_handles_distinct_paths_distinct_aliases (A : Allocator) (g : Generator)
    (inUse : List String) (calls : List Call) (i j : Nat) (s t : importedPackage)
    (hs : (Batch.run A g (Batch.start inUse) calls).imports.singles[i]? = some s)
    (ht : (Batch.run A g (Batch.start inUse) calls).imports.singles[j]? = some t)
    (hsu : s.IsUsed = true) (htu : t.IsUsed = true) (hp : s.pkg ≠ t.pkg) :
    s.name ≠ t.name
    ∧ ((Batch.run A g (Batch.start inUse) calls).Use A i).2
        ≠ ((Batch.run A g (Batch.start inUse) calls).Use A j).2 := by
  have hij : i ≠ j := by
    intro e
    subst e
    exact hp (congrArg importedPackage.pkg (Option.some.inj (hs.symm.trans ht)))
  have hd := (run_preserves_aliases A g (Batch.start inUse) calls
    (start_aliases inUse).1 (start_aliases inUse).2).2
  have hne := hd i j s t hs ht hsu htu hij
  refine ⟨hne, ?_⟩
  rw [Batch_Use_used A _ i s hs hsu, Batch_Use_used A _ j t ht htu]
  exact hne

/-- Claim C9 at a concrete run: handles for the paths "a/x" and "b/x", both
used. -/
theorem used_handles_distinct_paths_distinct_aliases_witness :
    (Batch.run suffixAllocator emptyGenerator (Batch.start [])
        [Call.NewImport "a/x", Call.NewImport "b/x", Call.Use 0, Call.Use 1]).imports.singles
      = [{ used := true, pkg := "a/x", name := "a/x", importPrefix := "" },
         { used := true, pkg := "b/x", name := "b/x", importPrefix := "" }]
    ∧ ((Batch.run suffixAllocator emptyGenerator (Batch.start [])
          [Call.NewImport "a/x", Call.NewImport "b/x", Call.Use 0, Call.Use 1]).Use
            suffixAllocator 0).2
        ≠ ((Batch.run suffixAllocator emptyGenerator (Batch.start [])
          [Call.NewImport "a/x", Call.NewImport "b/x", Call.Use 0, Call.Use 1]).Use
            suffixAllocator 1).2 :=
  ⟨by decide,
    (used_handles_distinct_paths_distinct_aliases suffixAllocator emptyGenerator []
      [Call.NewImport "a/x", Call.NewImport "b/x", Call.Use 0, Call.Use 1] 0 1
      { used := true, pkg := "a/x", name := "a/x", importPrefix := "" }
      { used := true, pkg := "b/x", name := "b/x", importPrefix := "" }
      (by decide) (by decide) rfl rfl (by decide)).2⟩

/-- Claim C7 as stated fails: `NewImport "a"` twice on an empty registry
returns the handles 0 and 1; `Use` on the first returns the alias "a", `Use`
on the second returns the alias "a_". -/
theorem NewImport_twice_aliases_differ_example :
    ((Batch.start []).NewImport emptyGenerator "a").2 = 0
    ∧ ((((Batch.start []).NewImport emptyGenerator "a").1).NewImport emptyGenerator "a").2 = 1
    ∧ (((((Batch.start []).NewImport emptyGenerator "a").1).NewImport emptyGenerator "a").1.Use
          suffixAllocator 0).2 = "a"
    ∧ ((((((Batch.start []).NewImport emptyGenerator "a").1).NewImport emptyGenerator "a").1.Use
          suffixAllocator 0).1.Use suffixAllocator 1).2 = "a_" := by
  decide

/-- Two `NewImport` requests for the same path on any registry, reached or
not, return two different handles, and `Use` on the one and then on the
other returns two different aliases. -/
theorem twice_requested_aliases_differ_any_registry (A : Allocator) (g : Generator)
    (b : Batch) (p : String) :
    (b.NewImport g p).2 ≠ ((b.NewImport g p).1.NewImport g p).2
    ∧ (((b.NewImport g p).1.NewImport g p).1.Use A (b.NewImport g p).2).2
        ≠ ((((b.NewImport g p).1.NewImport g p).1.Use A (b.NewImport g p).2).1.Use A
            ((b.NewImport g p).1.NewImport g p).2).2 := by
  have hlen : b.imports.singles.length
      < (b.imports.singles ++ [newImportedPackage g.ImportPrefix p]).length := by simp
  have h0 : ((b.imports.singles ++ [newImportedPackage g.ImportPrefix p])
      ++ [newImportedPackage g.ImportPrefix p])[b.imports.singles.length]?
        = some (newImportedPackage g.ImportPrefix p) := by
    rw [List.getElem?_append_left hlen, List.getElem?_append_right (Nat.le_refl _)]
    simp
  have h1 : ∀ x : importedPackage,
      (((b.imports.singles ++ [newImportedPackage g.ImportPrefix p])
        ++ [newImportedPackage g.ImportPrefix p]).set b.imports.singles.length x)[
          b.imports.singles.length + 1]?
        = some (newImportedPackage g.ImportPrefix p) := by
    intro x
    rw [List.getElem?_set]
    have e : ¬ b.imports.singles.length = b.imports.singles.length + 1 := by omega
    simp only [e, if_false]
    have : b.imports.singles.length + 1
        = (b.imports.singles ++ [newImportedPackage g.ImportPrefix p]).length := by simp
    rw [this, List.getElem?_append_right (Nat.le_refl _)]
    simp
  constructor
  · simp [Batch.NewImport, pluginImports.NewImport]
  · simp only [Batch.NewImport, pluginImports.NewImport, Batch.Use, h0, h1,
      List.length_append, List.length_singleton]
    simp only [importedPackage.Use, newImportedPackage, RegisterUniquePackageName,
      Bool.not_false, if_true]
    intro e
    exact A.fresh p (A.pick p b.pkgNamesInUse :: b.pkgNamesInUse)
      (e ▸ List.mem_cons_self _ _)

/-- After `Use` on a registered handle the handle is used and holds the alias
that the call returned. -/
theorem Batch_Use_valid (A : Allocator) (b : Batch) (h : Nat) (s : importedPackage)
    (hs : b.imports.singles[h]? = some s) :
    ∃ t : importedPackage, (b.Use A h).1.imports.singles[h]? = some t
      ∧ t.used = true ∧ t.name = (b.Use A h).2 := by
  have hh : h < b.imports.singles.length := by
    rcases Nat.lt_or_ge h b.imports.singles.length with x | x
    · exact x
    · rw [List.getElem?_eq_none x] at hs
      cases hs
  refine ⟨(s.Use A b.pkgNamesInUse).1, ?_, (Use_pkg A s _).2.2, ?_⟩
  · simp [Batch.Use, hs, hh]
  · simp only [Batch.Use, hs]
    rcases Use_cases A s b.pkgNamesInUse with ⟨_, hx⟩ | ⟨_, hx⟩ <;> rw [hx]

/-- In a batch whose aliases are recorded and distinct, `Use` on a registered
handle returns the alias of a used handle only when it is that handle. -/
theorem Use_alias_unique (A : Allocator) (b : Batch) (hr : b.aliasesRecorded)
    (hd : b.aliasesDistinct) (h k : Nat) (s : importedPackage)
    (hs : b.imports.singles[h]? = some s) (hu : s.used = true)
    (hk : k < b.imports.singles.length) (he : (b.Use A k).2 = s.name) : k = h := by
  have hget : b.imports.singles[k]? = some b.imports.singles[k] := List.getElem?_eq_getElem hk
  rcases Use_cases A b.imports.singles[k] b.pkgNamesInUse with ⟨htu, _⟩ | ⟨_, hx⟩
  · rw [Batch_Use_used A b k _ hget htu] at he
    by_cases e : k = h
    · exact e
    · exact absurd he (hd k h _ s hget hs htu hu e)
  · simp only [Batch.Use, hget, hx] at he
    exact absurd (he ▸ hr h s hs hu) (A.fresh _ _)

/-- Two requests for one path in a batch whose aliases are recorded and
distinct: the handles differ, the aliases differ, each handle keeps its alias
under further calls, and no other registered handle returns it. -/
theorem twoRequests_aliases (A : Allocator) (g : Generator) (b : Batch) (p : String)
    (more : List Call) (hr : b.aliasesRecorded) (hd : b.aliasesDistinct) :
    (b.NewImport g p).2 ≠ ((b.NewImport g p).1.NewImport g p).2
    ∧ (((b.NewImport g p).1.NewImport g p).1.Use A (b.NewImport g p).2).2
        ≠ ((((b.NewImport g p).1.NewImport g p).1.Use A (b.NewImport g p).2).1.Use A
            ((b.NewImport g p).1.NewImport g p).2).2
    ∧ ((Batch.run A g (b.twoRequestsUsed A g p) more).Use A (b.NewImport g p).2).2
        = (((b.NewImport g p).1.NewImport g p).1.Use A (b.NewImport g p).2).2
    ∧ ((Batch.run A g (b.twoRequestsUsed A g p) more).Use A
          ((b.NewImport g p).1.NewImport g p).2).2
        = ((((b.NewImport g p).1.NewImport g p).1.Use A (b.NewImport g p).2).1.Use A
            ((b.NewImport g p).1.NewImport g p).2).2
    ∧ (∀ k, k < (Batch.run A g (b.twoRequestsUsed A g p) more).imports.singles.length →
        ((Batch.run A g (b.twoRequestsUsed A g p) more).Use A k).2
            = (((b.NewImport g p).1.NewImport g p).1.Use A (b.NewImport g p).2).2 →
          k = (b.NewImport g p).2)
    ∧ (∀ k, k < (Batch.run A g (b.twoRequestsUsed A g p) more).imports.singles.length →
        ((Batch.run A g (b.twoRequestsUsed A g p) more).Use A k).2
            = ((((b.NewImport g p).1.NewImport g p).1.Use A (b.NewImport g p).2).1.Use A
                ((b.NewImport g p).1.NewImport g p).2).2 →
          k = ((b.NewImport g p).1.NewImport g p).2) := by
  -- the states, one call after the other
  have e1 : (b.NewImport g p).1 = Batch.call A g b (.NewImport p) := rfl
  have e2 : ((b.NewImport g p).1.NewImport g p).1
      = Batch.call A g (b.NewImport g p).1 (.NewImport p) := rfl
  have hn1 : (b.NewImport g p).2 = b.imports.singles.length := rfl
  have hn2 : ((b.NewImport g p).1.NewImport g p).2 = b.imports.singles.length + 1 := by
    simp [Batch.NewImport, pluginImports.NewImport]
  have inv1 := call_preserves_aliases A g b (.NewImport p) hr hd
  rw [← e1] at inv1
  have inv2 := call_preserves_aliases A g (b.NewImport g p).1 (.NewImport p) inv1.1 inv1.2
  rw [← e2] at inv2
  have g1 : ((b.NewImport g p).1.NewImport g p).1.imports.singles[(b.NewImport g p).2]?
      = some (newImportedPackage g.ImportPrefix p) := by
    show ((b.imports.singles ++ [newImportedPackage g.ImportPrefix p])
      ++ [newImportedPackage g.ImportPrefix p])[b.imports.singles.length]? = _
    rw [List.getElem?_append_left (by simp), List.getElem?_append_right (Nat.le_refl _)]
    simp
  have g2 : ((b.NewImport g p).1.NewImport g p).1.imports.singles[
      ((b.NewImport g p).1.NewImport g p).2]? = some (newImportedPackage g.ImportPrefix p) := by
    show ((b.imports.singles ++ [newImportedPackage g.ImportPrefix p])
      ++ [newImportedPackage g.ImportPrefix p])[
        (b.imports.singles ++ [newImportedPackage g.ImportPrefix p]).length]? = _
    rw [List.getElem?_append_right (Nat.le_refl _)]
    simp
  -- Use on the first handle
  rcases Batch_Use_valid A _ _ _ g1 with ⟨s1, hs1, hu1, hname1⟩
  have e3 : (((b.NewImport g p).1.NewImport g p).1.Use A (b.NewImport g p).2).1
      = Batch.call A g ((b.NewImport g p).1.NewImport g p).1 (.Use (b.NewImport g p).2) := rfl
  have inv3 := call_preserves_aliases A g ((b.NewImport g p).1.NewImport g p).1
    (.Use (b.NewImport g p).2) inv2.1 inv2.2
  rw [← e3] at inv3
  have g3 : (((b.NewImport g p).1.NewImport g p).1.Use A (b.NewImport g p).2).1.imports.singles[
      ((b.NewImport g p).1.NewImport g p).2]? = some (newImportedPackage g.ImportPrefix p) := by
    rw [e3, call_Use_some A g _ _ _ g1]
    simp only [List.getElem?_set]
    rw [if_neg (by rw [hn1, hn2]; omega)]
    exact g2
  -- Use on the second handle
  rcases Batch_Use_valid A _ _ _ g3 with ⟨s2, hs2, hu2, hname2⟩
  have e4 : b.twoRequestsUsed A g p
      = Batch.call A g (((b.NewImport g p).1.NewImport g p).1.Use A (b.NewImport g p).2).1
          (.Use ((b.NewImport g p).1.NewImport g p).2) := rfl
  have hs2b : (b.twoRequestsUsed A g p).imports.singles[
      ((b.NewImport g p).1.NewImport g p).2]? = some s2 := hs2
  have hs1b : (b.twoRequestsUsed A g p).imports.singles[(b.NewImport g p).2]? = some s1 := by
    rw [e4]
    exact call_keeps_used A g _ _ _ s1 hs1 hu1
  have inv4 := call_preserves_aliases A g
    (((b.NewImport g p).1.NewImport g p).1.Use A (b.NewImport g p).2).1
    (.Use ((b.NewImport g p).1.NewImport g p).2) inv3.1 inv3.2
  rw [← e4] at inv4
  -- any further calls
  have inv5 := run_preserves_aliases A g (b.twoRequestsUsed A g p) more inv4.1 inv4.2
  have k1 := run_keeps_used A g (b.twoRequestsUsed A g p) more _ s1 hs1b hu1
  have k2 := run_keeps_used A g (b.twoRequestsUsed A g p) more _ s2 hs2b hu2
  have hne : (b.NewImport g p).2 ≠ ((b.NewImport g p).1.NewImport g p).2 := by
    rw [hn1, hn2]
    omega
  refine ⟨hne, ?_, ?_, ?_, ?_, ?_⟩
  · rw [← hname1, ← hname2]
    exact inv5.2 _ _ s1 s2 k1 k2 hu1 hu2 hne
  · rw [Batch_Use_used A _ _ s1 k1 hu1]
    exact hname1
  · rw [Batch_Use_used A _ _ s2 k2 hu2]
    exact hname2
  · intro k hk he
    exact Use_alias_unique A _ inv5.1 inv5.2 _ k s1 k1 hu1 hk (he.trans hname1.symm)
  · intro k hk he
    exact Use_alias_unique A _ inv5.1 inv5.2 _ k s2 k2 hu2 hk (he.trans hname2.symm)

/-- Claim C7, amended: on every registry reached by `NewImport` and `Use` calls
in a batch, two further `NewImport` requests for the same path return two
different handles, and `Use` on the one and then on the other returns two
different aliases; after any further calls, `Use` on either handle returns
that handle's alias again, and `Use` on a registered handle returns one of
the two aliases only when it is the handle of that alias. -/
theorem NewImport_twice_distinct_handles_distinct_aliases (A : Allocator) (g : Generator)
    (inUse : List String) (calls : List Call) (p : String) (more : List Call) (b : Batch)
    (hb : b = Batch.run A g (Batch.start inUse) calls) :
    (b.NewImport g p).2 ≠ ((b.NewImport g p).1.NewImport g p).2
    ∧ (((b.NewImport g p).1.NewImport g p).1.Use A (b.NewImport g p).2).2
        ≠ ((((b.NewImport g p).1.NewImport g p).1.Use A (b.NewImport g p).2).1.Use A
            ((b.NewImport g p).1.NewImport g p).2).2
    ∧ ((Batch.run A g (b.twoRequestsUsed A g p) more).Use A (b.NewImport g p).2).2
        = (((b.NewImport g p).1.NewImport g p).1.Use A (b.NewImport g p).2).2
    ∧ ((Batch.run A g (b.twoRequestsUsed A g p) more).Use A
          ((b.NewImport g p).1.NewImport g p).2).2
        = ((((b.NewImport g p).1.NewImport g p).1.Use A (b.NewImport g p).2).1.Use A
            ((b.NewImport g p).1.NewImport g p).2).2
    ∧ (∀ k, k < (Batch.run A g (b.twoRequestsUsed A g p) more).imports.singles.length →
        ((Batch.run A g (b.twoRequestsUsed A g p) more).Use A k).2
            = (((b.NewImport g p).1.NewImport g p).1.Use A (b.NewImport g p).2).2 →
          k = (b.NewImport g p).2)
    ∧ (∀ k, k < (Batch.run A g (b.twoRequestsUsed A g p) more).imports.singles.length →
        ((Batch.run A g (b.twoRequestsUsed A g p) more).Use A k).2
            = ((((b.NewImport g p).1.NewImport g p).1.Use A (b.NewImport g p).2).1.Use A
                ((b.NewImport g p).1.NewImport g p).2).2 →
          k = ((b.NewImport g p).1.NewImport g p).2) := by
  subst hb
  exact twoRequests_aliases A g _ p more
    (run_preserves_aliases A g (Batch.start inUse) calls
      (start_aliases inUse).1 (start_aliases inUse).2).1
    (run_preserves_aliases A g (Batch.start inUse) calls
      (start_aliases inUse).1 (start_aliases inUse).2).2

/-- Claim C7, amended, at a concrete run: after a handle for "b" was requested
and used, "a" is requested twice and both handles are used; later `Use` on
the first of them still returns "a", and of the three registered handles
only that one returns "a". -/
theorem NewImport_twice_distinct_handles_distinct_aliases_witness :
    Batch.run suffixAllocator emptyGenerator (Batch.start []) [Call.NewImport "b", Call.Use 0]
      = Batch.run suffixAllocator emptyGenerator (Batch.start []) [Call.NewImport "b", Call.Use 0]
    ∧ ((Batch.run suffixAllocator emptyGenerator
          ((Batch.run suffixAllocator emptyGenerator (Batch.start [])
            [Call.NewImport "b", Call.Use 0]).twoRequestsUsed suffixAllocator emptyGenerator "a")
          [Call.NewImport "c"]).Use suffixAllocator 1).2 = "a"
    ∧ (∀ k, k < 4 →
        ((Batch.run suffixAllocator emptyGenerator
          ((Batch.run suffixAllocator emptyGenerator (Batch.start [])
            [Call.NewImport "b", Call.Use 0]).twoRequestsUsed suffixAllocator emptyGenerator "a")
          [Call.NewImport "c"]).Use suffixAllocator k).2 = "a" → k = 1) :=
  ⟨rfl,
    ((NewImport_twice_distinct_handles_distinct_aliases suffixAllocator emptyGenerator []
      [Call.NewImport "b", Call.Use 0] "a" [Call.NewImport "c"] _ rfl).2.2.1).trans (by decide),
    (NewImport_twice_distinct_handles_distinct_aliases suffixAllocator emptyGenerator []
      [Call.NewImport "b", Call.Use 0] "a" [Call.NewImport "c"] _ rfl).2.2.2.2.1⟩

/-! ## Theorems: type names -/

theorem lookup_eq_none_iff_no_entry (l : List (String × Object)) (k : String) :
    l.lookup k = none ↔ ∀ o, (k, o) ∉ l := by
  induction l with
  | nil => simp
  | cons a l ih =>
    rcases a with ⟨k1, v⟩
    by_cases e : k = k1
    · subst e
      simp only [List.lookup, beq_self_eq_true, List.mem_cons, not_or]
      constructor
      · intro h
        cases h
      · intro h
        exact absurd rfl (h v).1
    · have e2 : (k == k1) = false := by simpa using e
      simp [List.lookup, e2, ih, e]

/-- Claim C12: `TypeNameByObject` fails exactly when the type-name index has
no entry for the name; when there is an entry it returns that entry's object
and does not fail, and when there is none it ends in `Fail` with the message
"can't find object with type" followed by the name. -/
theorem TypeNameByObject_fails_iff_no_entry (g : Generator) (typeName : String) :
    ((∃ e, g.TypeNameByObject typeName = .error e) ↔ ∀ o, (typeName, o) ∉ g.typeNameToObject)
    ∧ (∀ o, g.typeNameToObject.lookup typeName = some o →
        g.TypeNameByObject typeName = .ok o)
    ∧ ((∀ o, (typeName, o) ∉ g.typeNameToObject) →
        g.TypeNameByObject typeName
          = .error (.Fail ("can't find object with type" ++ " " ++ typeName))) := by
  rw [← lookup_eq_none_iff_no_entry]
  cases h : g.typeNameToObject.lookup typeName with
  | none =>
    refine ⟨⟨fun _ => rfl, fun _ =>
      ⟨.Fail ("can't find object with type" ++ " " ++ typeName), ?_⟩⟩, ?_, ?_⟩
    · simp only [Generator.TypeNameByObject, h]
      rfl
    · intro o ho
      cases ho
    · intro _
      simp only [Generator.TypeNameByObject, h]
      rfl
  | some o =>
    refine ⟨⟨?_, ?_⟩, ?_, ?_⟩
    · rintro ⟨e, he⟩
      simp [Generator.TypeNameByObject, h] at he
    · intro hn
      cases hn
    · intro o1 ho
      simp only [Generator.TypeNameByObject, h]
      cases ho
      rfl
    · intro hn
      cases hn

/-- Claim C12 at a concrete index with one message: the entry is returned,
and a name without entry fails. -/
theorem TypeNameByObject_fails_iff_no_entry_witness :
    ({ ImportPrefix := "", Buffer := [],
       typeNameToObject := [(".pkg.A", Object.message { Name := "A", group := false })] }
        : Generator).TypeNameByObject ".pkg.A"
      = .ok (Object.message { Name := "A", group := false }) :=
  (TypeNameByObject_fails_iff_no_entry
    { ImportPrefix := "", Buffer := [],
      typeNameToObject := [(".pkg.A", Object.message { Name := "A", group := false })] }
    ".pkg.A").2.1 _ (by decide)

/-- Claim C13: `IsGroup` is true exactly when the type-name index maps the
field's type name to a message descriptor whose group flag is set; it is
false when the name maps to a message that is no group, to an enum, to a
value of another type, or to nothing. The function has no failing path. -/
theorem IsGroup_iff_group_message (g : Generator) (field : FieldDescriptorProto) :
    (g.IsGroup field = true ↔
      ∃ d, g.typeNameToObject.lookup field.GetTypeName = some (.message d) ∧ d.group = true)
    ∧ (∀ d, g.typeNameToObject.lookup field.GetTypeName = some (.message d) →
        d.group = false → g.IsGroup field = false)
    ∧ (∀ e, g.typeNameToObject.lookup field.GetTypeName = some (.enum e) →
        g.IsGroup field = false)
    ∧ (∀ n, g.typeNameToObject.lookup field.GetTypeName = some (.other n) →
        g.IsGroup field = false)
    ∧ ((∀ o, (field.GetTypeName, o) ∉ g.typeNameToObject) → g.IsGroup field = false) := by
  rw [← lookup_eq_none_iff_no_entry]
  unfold Generator.IsGroup
  cases h : g.typeNameToObject.lookup field.GetTypeName with
  | none => simp
  | some o =>
    cases o with
    | message d => simp [Descriptor.IsGroup]
    | enum e => simp
    | other n => simp

/-- Claim C13 at a concrete index: a field that refers to a group, and the
index that maps its type name to a message with the group flag set. -/
theorem IsGroup_iff_group_message_witness :
    ({ ImportPrefix := "", Buffer := [],
       typeNameToObject := [(".pkg.G", Object.message { Name := "G", group := true }),
                            (".pkg.E", Object.enum { Name := "E" })] } : Generator).IsGroup
        { Options := none, TypeName := some ".pkg.G" } = true :=
  (IsGroup_iff_group_message
    { ImportPrefix := "", Buffer := [],
      typeNameToObject := [(".pkg.G", Object.message { Name := "G", group := true }),
                           (".pkg.E", Object.enum { Name := "E" })] }
    { Options := none, TypeName := some ".pkg.G" }).1.mpr
    ⟨{ Name := "G", group := true }, by decide, rfl⟩

/-! ## Theorems: alias fragments and embedded field names -/

theorem importStr_data (a : String) : (importStr a).data = a.data.map underscore := by
  have h1 : strings.Replace a "/" "_"
      = String.mk (a.data.map (fun c => if c = '/' then '_' else c)) :=
    strings.Replace_single a '/' '_'
  have h2 : ∀ t : String, strings.Replace t "." "_"
      = String.mk (t.data.map (fun c => if c = '.' then '_' else c)) :=
    fun t => strings.Replace_single t '.' '_'
  rw [importStr, h1, h2]
  simp only [List.map_map]
  apply List.map_congr_left
  intro c _
  simp only [Function.comp, underscore]
  by_cases e1 : c = '/'
  · subst e1
    decide
  · by_cases e2 : c = '.'
    · subst e2
      decide
    · simp [e1, e2]

theorem not_mem_importStr (a : String) : '.' ∉ (importStr a).data := by
  rw [importStr_data]
  intro h
  rcases List.mem_map.mp h with ⟨c, _, hc⟩
  unfold underscore at hc
  split at hc
  · exact absurd hc (by decide)
  · rename_i hn
    exact hn (Or.inr hc)

theorem getCustomType_of_dot_importStr (a b : String) (h : '.' ∉ b.data) :
    getCustomType (fieldWithCustomType (a ++ "." ++ b)) = (importStr a ++ "." ++ b, a, none) :=
  getCustomType_of_dot a b h

/-- A text with a '.' is the text before its final '.', the '.', and the text
after it. -/
theorem exists_final_dot (s : String) (h : '.' ∈ s.data) :
    ∃ a b : String, s = a ++ "." ++ b ∧ '.' ∉ b.data := by
  have hr : '.' ∈ s.data.reverse := List.mem_reverse.mpr h
  rcases List.eq_append_cons_of_mem hr with ⟨as, bs, heq, hn⟩
  refine ⟨String.mk bs.reverse, String.mk as.reverse, ?_, ?_⟩
  · apply String.ext
    have := congrArg List.reverse heq
    simp only [List.reverse_reverse, List.reverse_append, List.reverse_cons,
      List.append_assoc, List.singleton_append] at this
    simp only [String.data_append, this, List.append_assoc]
    rfl
  · simpa using hn

theorem GoTypeToName_append_dot (a b : String) :
    GoTypeToName (a ++ "." ++ b) = GoTypeToName a ++ "." ++ GoTypeToName b := by
  have h1 : strings.Replace (a ++ "." ++ b) "*" ""
      = strings.Replace a "*" "" ++ "." ++ strings.Replace b "*" "" :=
    strings.Replace_append_sep a b "*" "" '.' (by decide) (by decide)
  have h2 : ∀ x y : String, strings.Replace (x ++ "." ++ y) "[]" ""
      = strings.Replace x "[]" "" ++ "." ++ strings.Replace y "[]" "" :=
    fun x y => strings.Replace_append_sep x y "[]" "" '.' (by decide) (by decide)
  rw [GoTypeToName, h1, h2]
  rfl

theorem count_dot_GoTypeToName (s : String) :
    (GoTypeToName s).data.count '.' = s.data.count '.' := by
  rw [GoTypeToName, strings.count_Replace_empty _ "[]" '.' (by decide),
    strings.count_Replace_empty _ "*" '.' (by decide)]

theorem not_mem_GoTypeToName (s : String) (h : '.' ∉ s.data) : '.' ∉ (GoTypeToName s).data := by
  have := count_dot_GoTypeToName s
  rw [List.count_eq_zero_of_not_mem h] at this
  exact List.count_eq_zero.mp this

/-- On a type with exactly one '.', `EmbedFieldName` returns the stripped text
after the '.'. -/
theorem EmbedFieldName_one_dot (a b : String) (ha : '.' ∉ a.data) (hb : '.' ∉ b.data) :
    EmbedFieldName (a ++ "." ++ b) = .ok (GoTypeToName b) := by
  have hs : strings.Split (GoTypeToName a ++ "." ++ GoTypeToName b) '.'
      = [GoTypeToName a, GoTypeToName b] := by
    have := strings.Split_append_sep (GoTypeToName a) (GoTypeToName b) '.'
      (not_mem_GoTypeToName b hb)
    rw [strings.Split_of_not_mem _ '.' (not_mem_GoTypeToName a ha)] at this
    exact this
  simp only [EmbedFieldName, GoTypeToName_append_dot, hs]
  rfl

/-- On a type without '.', `EmbedFieldName` returns the stripped type. -/
theorem EmbedFieldName_no_dot (goTyp : String) (h : '.' ∉ goTyp.data) :
    EmbedFieldName goTyp = .ok (GoTypeToName goTyp) := by
  simp [EmbedFieldName, strings.Split_of_not_mem _ '.' (not_mem_GoTypeToName goTyp h)]

/-- On a type with two or more '.', `EmbedFieldName` reaches its panic. -/
theorem EmbedFieldName_many_dots (goTyp : String) (h : 2 ≤ goTyp.data.count '.') :
    EmbedFieldName goTyp = .error (.panic "unreachable") := by
  have hl : (strings.Split (GoTypeToName goTyp) '.').length = goTyp.data.count '.' + 1 := by
    rw [strings.length_Split, count_dot_GoTypeToName]
  have h1 : ¬ (strings.Split (GoTypeToName goTyp) '.').length = 1 := by omega
  have h2 : ¬ (strings.Split (GoTypeToName goTyp) '.').length = 2 := by omega
  simp [EmbedFieldName, h1, h2]

/-- Claim C15 as stated fails: the annotations "a/b.T" and "a.b.T" have the
different import paths "a/b" and "a.b", and `getCustomType` builds the same
type reference "a_b.T", with the same alias qualifier "a_b", for both. -/
theorem importStr_collision_example :
    getCustomType (fieldWithCustomType "a/b.T") = ("a_b.T", "a/b", none)
    ∧ getCustomType (fieldWithCustomType "a.b.T") = ("a_b.T", "a.b", none)
    ∧ "a/b" ≠ "a.b"
    ∧ importStr "a/b" = importStr "a.b" := by
  decide

/-- Claim C15, amended: for two annotations with a '.', with import paths `a`
and `c` (the texts before the final '.'), the type reference that
`getCustomType` builds is the alias qualifier `importStr` of the import path,
a '.', and the type name; the two qualifiers are equal exactly when the
two import paths agree character by character once every '/' and '.' is
read as '_'. Two import paths of different length have different
qualifiers. -/
theorem importStr_eq_iff_same_after_underscore (a b c d : String)
    (hb : '.' ∉ b.data) (hd : '.' ∉ d.data) :
    (getCustomType (fieldWithCustomType (a ++ "." ++ b))).1 = importStr a ++ "." ++ b
    ∧ (getCustomType (fieldWithCustomType (c ++ "." ++ d))).1 = importStr c ++ "." ++ d
    ∧ (importStr a = importStr c ↔ a.data.map underscore = c.data.map underscore)
    ∧ (a.length ≠ c.length → importStr a ≠ importStr c) := by
  have hiff : importStr a = importStr c ↔ a.data.map underscore = c.data.map underscore := by
    constructor
    · intro h
      rw [← importStr_data, ← importStr_data, h]
    · intro h
      apply String.ext
      rw [importStr_data, importStr_data, h]
  refine ⟨?_, ?_, hiff, ?_⟩
  · rw [getCustomType_of_dot_importStr a b hb]
  · rw [getCustomType_of_dot_importStr c d hd]
  · intro hlen heq
    have := congrArg List.length (hiff.mp heq)
    simp only [List.length_map] at this
    exact hlen this

/-- Claim C15, amended, at the annotations "a/b.T" and "a/c.T": the qualifiers
"a_b" and "a_c" differ. -/
theorem importStr_eq_iff_same_after_underscore_witness :
    '.' ∉ "T".data
    ∧ (getCustomType (fieldWithCustomType ("a/b" ++ "." ++ "T"))).1 = importStr "a/b" ++ "." ++ "T"
    ∧ ¬ importStr "a/b" = importStr "a/c" :=
  ⟨by decide,
    (importStr_eq_iff_same_after_underscore "a/b" "T" "a/c" "T" (by decide) (by decide)).1,
    fun h =>
      absurd ((importStr_eq_iff_same_after_underscore "a/b" "T" "a/c" "T"
        (by decide) (by decide)).2.2.1.mp h) (by decide)⟩

/-- Claim C17: for every annotation with a '.', with `a` the text before its
final '.' and `b` the type name after it, the type reference that
`getCustomType` builds is `importStr a`, a '.', and `b`; it holds exactly one
'.', and `EmbedFieldName` applied to it does not panic and returns
`GoTypeToName b`. -/
theorem EmbedFieldName_of_custom_type (ctype : String) (h : '.' ∈ ctype.data) :
    ∃ a b : String, ctype = a ++ "." ++ b ∧ '.' ∉ b.data
      ∧ (getCustomType (fieldWithCustomType ctype)).1 = importStr a ++ "." ++ b
      ∧ (getCustomType (fieldWithCustomType ctype)).1.data.count '.' = 1
      ∧ EmbedFieldName (getCustomType (fieldWithCustomType ctype)).1 = .ok (GoTypeToName b) := by
  rcases exists_final_dot ctype h with ⟨a, b, rfl, hb⟩
  refine ⟨a, b, rfl, hb, ?_, ?_, ?_⟩
  · rw [getCustomType_of_dot_importStr a b hb]
  · rw [getCustomType_of_dot_importStr a b hb]
    have hd : (importStr a ++ "." ++ b).data = (importStr a).data ++ '.' :: b.data := by
      simp only [String.data_append, List.append_assoc]
      rfl
    rw [hd, List.count_append, List.count_cons, List.count_eq_zero_of_not_mem hb,
      List.count_eq_zero_of_not_mem (not_mem_importStr a)]
    simp
  · rw [getCustomType_of_dot_importStr a b hb]
    exact EmbedFieldName_one_dot _ b (not_mem_importStr a) hb

/-- Claim C17 at the annotation "foo/bar.Baz". -/
theorem EmbedFieldName_of_custom_type_witness :
    '.' ∈ "foo/bar.Baz".data
    ∧ ∃ a b : String, "foo/bar.Baz" = a ++ "." ++ b ∧ '.' ∉ b.data
      ∧ (getCustomType (fieldWithCustomType "foo/bar.Baz")).1 = importStr a ++ "." ++ b
      ∧ (getCustomType (fieldWithCustomType "foo/bar.Baz")).1.data.count '.' = 1
      ∧ EmbedFieldName (getCustomType (fieldWithCustomType "foo/bar.Baz")).1
          = .ok (GoTypeToName b) :=
  ⟨by decide, EmbedFieldName_of_custom_type "foo/bar.Baz" (by decide)⟩

/-- Claim C18 as stated fails: on the text "a.b.c" `EmbedFieldName` reaches
`panic("unreachable")`. -/
theorem EmbedFieldName_panics_on_two_dots :
    EmbedFieldName "a.b.c" = .error (.panic "unreachable") := by
  rfl

/-- Claim C18, amended: `EmbedFieldName` returns without panicking on every
text with at most one '.': the text with '*' and '[]' removed when it has no
'.', and the part after the '.', with '*' and '[]' removed, when it has one.
On a text with two or more '.' it reaches `panic("unreachable")`. -/
theorem EmbedFieldName_by_number_of_dots (goTyp : String) :
    ('.' ∉ goTyp.data → EmbedFieldName goTyp = .ok (GoTypeToName goTyp))
    ∧ (∀ a b : String, goTyp = a ++ "." ++ b → '.' ∉ a.data → '.' ∉ b.data →
        EmbedFieldName goTyp = .ok (GoTypeToName b))
    ∧ (2 ≤ goTyp.data.count '.' → EmbedFieldName goTyp = .error (.panic "unreachable")) := by
  refine ⟨EmbedFieldName_no_dot goTyp, ?_, EmbedFieldName_many_dots goTyp⟩
  rintro a b rfl ha hb
  exact EmbedFieldName_one_dot a b ha hb

/-- Claim C18, amended, at the types "[]*Msg" and "*pkg.Msg". -/
theorem EmbedFieldName_by_number_of_dots_witness :
    '.' ∉ "[]*Msg".data
    ∧ EmbedFieldName "[]*Msg" = .ok "Msg"
    ∧ EmbedFieldName ("*pkg" ++ "." ++ "Msg") = .ok "Msg" :=
  ⟨by decide,
    ((EmbedFieldName_by_number_of_dots "[]*Msg").1 (by decide)).trans
      (congrArg Except.ok (by decide)),
    ((EmbedFieldName_by_number_of_dots ("*pkg" ++ "." ++ "Msg")).2.1 "*pkg" "Msg" rfl
      (by decide) (by decide)).trans (congrArg Except.ok (by decide))⟩

/-! ## Theorems: the registry under all operations -/

theorem step_length (A : Allocator) (Quote : String → String) (w : World) (op : Op) :
    w.batch.imports.singles.length ≤ (World.step A Quote w op).batch.imports.singles.length := by
  cases op with
  | NewImport p =>
    show _ ≤ (Batch.call A w.generator w.batch (.NewImport p)).imports.singles.length
    rw [call_length]
    omega
  | Use k =>
    show _ ≤ (Batch.call A w.generator w.batch (.Use k)).imports.singles.length
    rw [call_length]
    omega
  | IsUsed k => exact Nat.le_refl _
  | Generate k => exact Nat.le_refl _
  | GenerateImports file => exact Nat.le_refl _

theorem step_usedAt (A : Allocator) (Quote : String → String) (w : World) (op : Op) (h : Nat)
    (hh : h < w.batch.imports.singles.length) :
    (World.step A Quote w op).batch.imports.usedAt h
      = (w.batch.imports.usedAt h || decide (op = Op.Use h)) := by
  cases op with
  | NewImport p =>
    show (Batch.call A w.generator w.batch (.NewImport p)).imports.usedAt h = _
    rw [usedAt_call_NewImport]
    simp
  | Use k =>
    show (Batch.call A w.generator w.batch (.Use k)).imports.usedAt h = _
    by_cases hk : k < w.batch.imports.singles.length
    · rw [usedAt_call_Use A w.generator w.batch k h hk]
      by_cases e : h = k
      · subst e
        simp
      · have e2 : ¬ k = h := fun x => e x.symm
        simp [e, e2]
    · rw [call_Use_none A w.generator w.batch k (List.getElem?_eq_none (by omega))]
      have e2 : ¬ k = h := by omega
      simp [e2]
  | IsUsed k => simp [World.step]
  | Generate k => simp [World.step]
  | GenerateImports file => simp [World.step]

/-- After any operations a registered handle is used exactly when it was used
before or `Use` is among the operations. -/
theorem run_World_usedAt (A : Allocator) (Quote : String → String) (w : World) (ops : List Op)
    (h : Nat) (hh : h < w.batch.imports.singles.length) :
    (World.run A Quote w ops).batch.imports.usedAt h
        = (w.batch.imports.usedAt h || decide (Op.Use h ∈ ops))
    ∧ h < (World.run A Quote w ops).batch.imports.singles.length := by
  induction ops generalizing w with
  | nil => simp [World.run, hh]
  | cons op ops ih =>
    have hh2 : h < (World.step A Quote w op).batch.imports.singles.length :=
      Nat.lt_of_lt_of_le hh (step_length A Quote w op)
    have := ih (World.step A Quote w op) hh2
    simp only [World.run, List.foldl_cons] at this ⊢
    refine ⟨?_, this.2⟩
    rw [this.1, step_usedAt A Quote w op h hh]
    by_cases e : op = Op.Use h
    · simp [e]
    · have e2 : ¬ Op.Use h = op := fun x => e x.symm
      simp [e, e2]

theorem step_keeps_used (A : Allocator) (Quote : String → String) (w : World) (op : Op)
    (i : Nat) (s : importedPackage) (hs : w.batch.imports.singles[i]? = some s)
    (hu : s.used = true) :
    (World.step A Quote w op).batch.imports.singles[i]? = some s := by
  cases op with
  | NewImport p => exact call_keeps_used A w.generator w.batch (.NewImport p) i s hs hu
  | Use k => exact call_keeps_used A w.generator w.batch (.Use k) i s hs hu
  | IsUsed k => exact hs
  | Generate k => exact hs
  | GenerateImports file => exact hs

theorem run_World_keeps_used (A : Allocator) (Quote : String → String) (w : World)
    (ops : List Op) (i : Nat) (s : importedPackage)
    (hs : w.batch.imports.singles[i]? = some s) (hu : s.used = true) :
    (World.run A Quote w ops).batch.imports.singles[i]? = some s := by
  induction ops generalizing w with
  | nil => exact hs
  | cons op ops ih =>
    simp only [World.run, List.foldl_cons] at ih ⊢
    exact ih _ (step_keeps_used A Quote w op i s hs hu)

theorem step_pkgs (A : Allocator) (Quote : String → String) (w : World) (op : Op) :
    ∃ more : List String,
      (World.step A Quote w op).batch.imports.singles.map (fun s => s.pkg)
        = w.batch.imports.singles.map (fun s => s.pkg) ++ more := by
  cases op with
  | NewImport p => exact ⟨_, call_pkgs A w.generator w.batch (.NewImport p)⟩
  | Use k => exact ⟨_, call_pkgs A w.generator w.batch (.Use k)⟩
  | IsUsed k => exact ⟨[], by simp [World.step]⟩
  | Generate k => exact ⟨[], by simp [World.step]⟩
  | GenerateImports file => exact ⟨[], by simp [World.step]⟩

/-- No operation removes a handle: the paths registered before are still
there, in place, after any operations. -/
theorem run_World_pkgs (A : Allocator) (Quote : String → String) (w : World) (ops : List Op) :
    ∃ more : List String,
      (World.run A Quote w ops).batch.imports.singles.map (fun s => s.pkg)
        = w.batch.imports.singles.map (fun s => s.pkg) ++ more := by
  induction ops generalizing w with
  | nil => exact ⟨[], by simp [World.run]⟩
  | cons op ops ih =>
    rcases ih (World.step A Quote w op) with ⟨m2, h2⟩
    rcases step_pkgs A Quote w op with ⟨m1, h1⟩
    simp only [World.run, List.foldl_cons] at h2 ⊢
    exact ⟨m1 ++ m2, by rw [h2, h1, List.append_assoc]⟩

/-- Claim C11: for the handle that a `NewImport` call returns and every
sequence of operations applied afterwards, the handle is still registered
and its `IsUsed` is true exactly when `Use` on this handle is among the
operations. -/
theorem IsUsed_iff_Use_called (A : Allocator) (Quote : String → String) (w : World)
    (pkg : String) (ops : List Op) :
    ∃ s : importedPackage,
      (World.run A Quote (World.step A Quote w (.NewImport pkg)) ops).batch.imports.singles[
          (w.batch.imports.NewImport w.generator pkg).2]? = some s
      ∧ s.pkg = pkg
      ∧ (s.IsUsed = true ↔ Op.Use (w.batch.imports.NewImport w.generator pkg).2 ∈ ops) := by
  have hlen : (w.batch.imports.NewImport w.generator pkg).2
      < (World.step A Quote w (.NewImport pkg)).batch.imports.singles.length := by
    simp [World.step, Batch.NewImport, pluginImports.NewImport]
  have hrun := run_World_usedAt A Quote (World.step A Quote w (.NewImport pkg)) ops _ hlen
  have h0 : (World.step A Quote w (.NewImport pkg)).batch.imports.usedAt
      (w.batch.imports.NewImport w.generator pkg).2 = false := by
    simp [World.step, Batch.NewImport, pluginImports.NewImport, pluginImports.usedAt,
      newImportedPackage, importedPackage.IsUsed]
  have hget := List.getElem?_eq_getElem hrun.2
  refine ⟨_, hget, ?_, ?_⟩
  · rcases run_World_pkgs A Quote (World.step A Quote w (.NewImport pkg)) ops with ⟨more, hm⟩
    have := congrArg (fun l => l[(w.batch.imports.NewImport w.generator pkg).2]?) hm
    simp only [List.getElem?_map, hget, Option.map_some'] at this
    rw [List.getElem?_append_left (by simpa using hlen)] at this
    simp [World.step, Batch.NewImport, pluginImports.NewImport, newImportedPackage] at this
    exact this
  · have h1 := hrun.1
    rw [h0] at h1
    simp only [pluginImports.usedAt, hget, Bool.false_or] at h1
    rw [h1]
    simp

/-- Claim C11 at a concrete run: a handle for "a" is requested, then used,
asked for its state and printed. -/
theorem IsUsed_iff_Use_called_witness :
    ∃ s : importedPackage,
      (World.run suffixAllocator plainQuote
          (World.step suffixAllocator plainQuote
            { batch := Batch.start [], generator := emptyGenerator } (.NewImport "a"))
          [Op.IsUsed 0, Op.Use 0, Op.Generate 0,
            Op.GenerateImports { Name := "f.proto" }]).batch.imports.singles[
          ((Batch.start []).imports.NewImport emptyGenerator "a").2]? = some s
      ∧ s.pkg = "a"
      ∧ (s.IsUsed = true ↔ Op.Use ((Batch.start []).imports.NewImport emptyGenerator "a").2
          ∈ [Op.IsUsed 0, Op.Use 0, Op.Generate 0, Op.GenerateImports { Name := "f.proto" }]) :=
  IsUsed_iff_Use_called suffixAllocator plainQuote
    { batch := Batch.start [], generator := emptyGenerator } "a"
    [Op.IsUsed 0, Op.Use 0, Op.Generate 0, Op.GenerateImports { Name := "f.proto" }]

/-- Claim C19: once `Use` has been called on a registered handle, the handle
stays registered, used and unchanged under every later sequence of
operations (`NewImport`, `Use`, `IsUsed`, `Generate`, `GenerateImports`); no
operation shortens the registry or moves a path; `GenerateImports` gives the
same result for every file argument; and every later `GenerateImports` call
on the registry, into any generator and for any file, prints the
declaration of that handle. -/
theorem used_handle_stays_declared (A : Allocator) (Quote : String → String) (w : World)
    (h : Nat) (ops : List Op) (g1 : Generator) (file file2 : FileDescriptor)
    (hh : h < w.batch.imports.singles.length) :
    ∃ s : importedPackage,
      (World.step A Quote w (.Use h)).batch.imports.singles[h]? = some s
      ∧ s.IsUsed = true
      ∧ (World.run A Quote (World.step A Quote w (.Use h)) ops).batch.imports.singles[h]? = some s
      ∧ (∃ more : List String,
          (World.run A Quote (World.step A Quote w (.Use h)) ops).batch.imports.singles.map
              (fun s => s.pkg)
            = w.batch.imports.singles.map (fun s => s.pkg) ++ more)
      ∧ (World.run A Quote (World.step A Quote w (.Use h)) ops).batch.imports.GenerateImports
            Quote g1 file2
          = (World.run A Quote (World.step A Quote w (.Use h)) ops).batch.imports.GenerateImports
            Quote g1 file
      ∧ ∃ before after : List String,
          ((World.run A Quote (World.step A Quote w (.Use h)) ops).batch.imports.GenerateImports
            Quote g1 file).Buffer = g1.Buffer ++ (before ++ s.Generate Quote :: after) := by
  have hget : w.batch.imports.singles[h]? = some w.batch.imports.singles[h] :=
    List.getElem?_eq_getElem hh
  have hstep : (World.step A Quote w (.Use h)).batch
      = Batch.call A w.generator w.batch (.Use h) := rfl
  have hs1 : (World.step A Quote w (.Use h)).batch.imports.singles[h]?
      = some (w.batch.imports.singles[h].Use A w.batch.pkgNamesInUse).1 := by
    rw [hstep, call_Use_some A w.generator w.batch h _ hget]
    simp [hh]
  have hu : (w.batch.imports.singles[h].Use A w.batch.pkgNamesInUse).1.used = true :=
    (Use_pkg A _ _).2.2
  have hs2 := run_World_keeps_used A Quote (World.step A Quote w (.Use h)) ops h _ hs1 hu
  refine ⟨_, hs1, hu, hs2, ?_, rfl, ?_⟩
  · rcases run_World_pkgs A Quote (World.step A Quote w (.Use h)) ops with ⟨m2, h2⟩
    rcases step_pkgs A Quote w (.Use h) with ⟨m1, h1⟩
    exact ⟨m1 ++ m2, by rw [h2, h1, List.append_assoc]⟩
  · have hmem : (w.batch.imports.singles[h].Use A w.batch.pkgNamesInUse).1
        ∈ (World.run A Quote (World.step A Quote w (.Use h)) ops).batch.imports.singles.filter
            (fun s => s.IsUsed) :=
      List.mem_filter.mpr ⟨List.getElem?_mem hs2, hu⟩
    rcases List.append_of_mem hmem with ⟨l1, l2, hl⟩
    refine ⟨l1.map (fun s => s.Generate Quote), l2.map (fun s => s.Generate Quote), ?_⟩
    rw [pluginImports.GenerateImports, (GenerateImports_foldl Quote _ g1).1, hl]
    simp

/-- Claim C19 at a concrete run: the handle for "a" is used, then further
handles are requested and the imports are printed for two files. -/
theorem used_handle_stays_declared_witness :
    0 < (World.step suffixAllocator plainQuote
          { batch := Batch.start [], generator := emptyGenerator }
          (.NewImport "a")).batch.imports.singles.length
    ∧ ∃ s : importedPackage,
        (World.run suffixAllocator plainQuote
            (World.step suffixAllocator plainQuote
              (World.step suffixAllocator plainQuote
                { batch := Batch.start [], generator := emptyGenerator } (.NewImport "a"))
              (.Use 0))
            [Op.NewImport "b", Op.GenerateImports { Name := "f.proto" },
              Op.IsUsed 0]).batch.imports.singles[0]? = some s
        ∧ s.IsUsed = true :=
  ⟨by decide,
    (used_handle_stays_declared suffixAllocator plainQuote
      (World.step suffixAllocator plainQuote
        { batch := Batch.start [], generator := emptyGenerator } (.NewImport "a"))
      0 [Op.NewImport "b", Op.GenerateImports { Name := "f.proto" }, Op.IsUsed 0]
      emptyGenerator { Name := "f.proto" } { Name := "g.proto" } (by decide)).elim
      (fun s hs => ⟨s, hs.2.2.1, hs.2.1⟩)⟩

/-! ## Theorems: the generation pipeline -/

theorem concat_append (a b : List String) : concat (a ++ b) = concat a ++ concat b := by
  induction a with
  | nil => simp [concat]
  | cons c cs ih => simp [concat, ih, String.append_assoc]

/-- Claim C16: in `generatePlugin` the strategy's `Generate` runs first, and
`GenerateImports` runs on the strategy state that `Generate` returned, after
the body was set aside and the header was printed into a new buffer. The
text handed to the parser is what the buffer holds after `GenerateImports`,
followed by exactly the body that was in the buffer when `Generate`
returned; when `GenerateImports` has only added its declarations to the
header, this text is the header, the declarations and the body, in this
order. -/
theorem generatePlugin_parses_header_imports_body {σ : Type} (E : Externals) (p : Plugin σ)
    (s : σ) (g : Generator) (file : FileDescriptor) :
    (g.headerRun E p s file).Buffer
        = E.generateHeader { (g.bodyRun E p s file).2 with Buffer := [] }
    ∧ g.assemble E p s file
        = ((g.importsRun E p s file).1,
            (g.importsRun E p s file).2.Write (concat (g.bodyRun E p s file).2.Buffer))
    ∧ (g.assemble E p s file).2.String
        = concat (g.importsRun E p s file).2.Buffer ++ concat (g.bodyRun E p s file).2.Buffer
    ∧ (∀ decls : List String,
        (g.importsRun E p s file).2.Buffer = (g.headerRun E p s file).Buffer ++ decls →
        (g.assemble E p s file).2.String
          = concat (E.generateHeader { (g.bodyRun E p s file).2 with Buffer := [] })
            ++ concat decls ++ concat (g.bodyRun E p s file).2.Buffer)
    ∧ g.generatePlugin E p s file
        = (match E.ParseFile (g.assemble E p s file).2.String with
          | .error err => Generator.Fail ["bad Go source code was generated:", err]
          | .ok ast =>
            match E.Fprint ast with
            | .error err =>
              Generator.Fail ["generated Go source code could not be reformatted:", err]
            | .ok text => .ok ((g.assemble E p s file).1, (g.assemble E p s file).2.Reset.Write text)) := by
  have hH : (g.headerRun E p s file).Buffer
      = E.generateHeader { (g.bodyRun E p s file).2 with Buffer := [] } := by
    simp [Generator.headerRun, Generator.generateHeader]
  have hS : (g.assemble E p s file).2.String
      = concat (g.importsRun E p s file).2.Buffer
        ++ concat (g.bodyRun E p s file).2.Buffer := by
    show concat ((g.importsRun E p s file).2.Buffer ++ [concat (g.bodyRun E p s file).2.Buffer])
      = _
    rw [concat_append]
    simp [concat]
  refine ⟨hH, rfl, hS, ?_, rfl⟩
  intro decls hd
  rw [hS, hd, hH, concat_append]

/-- Claim C16 at a concrete run: the strategy prints one line of body and its
registry declares the import "fmt"; the parser is handed the header, the
declaration of the import and the body line. -/
theorem generatePlugin_parses_header_imports_body_witness :
    (twoFileGenerator.importsRun plainExternals plainPlugin (Batch.start [])
        { Name := "a.proto" }).2.Buffer
      = (twoFileGenerator.headerRun plainExternals plainPlugin (Batch.start [])
          { Name := "a.proto" }).Buffer ++ ["import fmt \"fmt\""]
    ∧ (twoFileGenerator.assemble plainExternals plainPlugin (Batch.start [])
          { Name := "a.proto" }).2.String
        = concat ["// Code generated.\n"] ++ concat ["import fmt \"fmt\""]
          ++ concat ["var _ = fmt.Sprint // a.proto\n"] :=
  ⟨by decide,
    (generatePlugin_parses_header_imports_body plainExternals plainPlugin (Batch.start [])
      twoFileGenerator { Name := "a.proto" }).2.2.2.1 ["import fmt \"fmt\""] (by decide)⟩

end Helper
